import Mathlib

/-!
# Verification of the tiny LISP-to-C compiler pipeline

A shallow embedding of `src/the-super-tiny-compiler.js`: the tokenizer, the
recursive-descent parser, the generic visitor-driven traverser, the
transformer (with its `_context` output-collection-handle mechanism), and the
code generator, together with theorems settling the specification claims.

Modelling conventions:
* JavaScript's `input[i]` (which yields `undefined` out of range) is modelled
  with `List.getElem?` / explicit run helpers; a read of a property of
  `undefined` (a host `TypeError`) is modelled as an explicit error value.
* The two scanner loops that never terminate in the source (see the comments
  at `lexLoop`) are modelled by an explicit `diverge` result.
* Loops and recursions carry a fuel parameter so that every definition is
  structurally recursive and evaluates inside the kernel; `fuelOut` results
  are modelling artifacts, proved unreachable for the fuel each entry point
  supplies.
* Mutable-object identity (the `_context` property the transformer attaches
  to source-tree nodes) is modelled by keying a context table with the node's
  path from the root, which is a faithful stand-in for object identity
  because the parser produces trees of distinct fresh objects.
-/

/-! ## Tokens -/

inductive TokenType where
  | paren
  | number
  | string
  | name
deriving DecidableEq

structure Token where
  type : TokenType
  value : String
deriving DecidableEq

/-! ## Tokenizer

Embeds `tokenizer(input)`.  Character classes follow the source regexes:
`/\s/` (JavaScript whitespace), `/[0-9]/`, `/[a-z]/i`. -/

/-- The character class of JavaScript's `/\s/`. -/
def isWhitespaceChar (c : Char) : Bool :=
  c = ' ' || c = '\t' || c = '\n' || c = '\x0b' || c = '\x0c' || c = '\r' ||
  c = ' ' || c = ' ' || (' ' ≤ c && c ≤ ' ') ||
  c = ' ' || c = ' ' || c = ' ' || c = ' ' ||
  c = '　' || c = '﻿'

/-- The character class of `/[a-z]/i`. -/
def isLetterChar (c : Char) : Bool :=
  ('a' ≤ c && c ≤ 'z') || ('A' ≤ c && c ≤ 'Z')

/-- The character class of `/[0-9]/`. -/
def isDigitChar (c : Char) : Bool :=
  '0' ≤ c && c ≤ '9'

/-- A `while (test(char)) { value += char; char = input[++current]; }` loop:
returns the collected run and the unconsumed rest of the input. -/
def runWhile (p : Char → Bool) : List Char → List Char × List Char
  | [] => ([], [])
  | c :: cs =>
    if p c then
      let r := runWhile p cs
      (c :: r.1, r.2)
    else ([], c :: cs)

/-- The string-literal loop `while (char !== '"') { value += char; char = input[++current]; }`:
splits at the first double quote, or `none` when no closing quote exists
before end-of-input — in the source the loop then never exits, because
`input[current]` is `undefined` and `undefined !== '"'`. -/
def splitAtQuote : List Char → Option (List Char × List Char)
  | [] => none
  | c :: cs =>
    if c = '"' then some ([], cs)
    else (splitAtQuote cs).map (fun r => (c :: r.1, r.2))

inductive LexResult where
  | ok (tokens : List Token)
  /-- `throw new TypeError('I dont know what this character is: ' + char)`. -/
  | unknownChar (c : Char)
  /-- The source's scanner loops forever.  This happens in exactly two
  situations: a string literal with no closing quote (the loop guard
  `char !== '"'` stays true once `char` is `undefined`), and a letter run
  that reaches end-of-input (the guard `LETTERS.test(char)` coerces the
  out-of-range `undefined` to the string `"undefined"`, which matches
  `/[a-z]/i`, so the loop guard stays true forever).  Note that a digit run
  reaching end-of-input terminates normally: `"undefined"` contains no
  character matching `/[0-9]/`. -/
  | diverge
  /-- Fuel-exhaustion artifact of the embedding; proved unreachable for the
  fuel supplied by `tokenizer`. -/
  | fuelOut
deriving DecidableEq

/-- The main scanner loop of `tokenizer`, one fuel unit per iteration of the
source's `while (current < input.length)` loop. -/
def lexLoop : Nat → List Char → List Token → LexResult
  | _, [], tokens => .ok tokens
  | 0, _ :: _, _ => .fuelOut
  | fuel + 1, c :: rest, tokens =>
    if c = '(' then lexLoop fuel rest (tokens ++ [⟨.paren, "("⟩])
    else if c = ')' then lexLoop fuel rest (tokens ++ [⟨.paren, ")"⟩])
    else if isWhitespaceChar c then lexLoop fuel rest tokens
    else if isDigitChar c then
      let r := runWhile isDigitChar (c :: rest)
      lexLoop fuel r.2 (tokens ++ [⟨.number, String.mk r.1⟩])
    else if c = '"' then
      match splitAtQuote rest with
      | none => .diverge
      | some r => lexLoop fuel r.2 (tokens ++ [⟨.string, String.mk r.1⟩])
    else if isLetterChar c then
      let r := runWhile isLetterChar (c :: rest)
      if r.2.isEmpty then .diverge
      else lexLoop fuel r.2 (tokens ++ [⟨.name, String.mk r.1⟩])
    else .unknownChar c

/-- `tokenizer(input)`.  Each loop iteration consumes at least one character,
so `input.length` units of fuel always suffice (`lexLoop_no_fuelOut`). -/
def tokenizer (input : String) : LexResult :=
  lexLoop input.length input.data []

/-! ## Source abstract syntax tree -/

/-- Source-tree nodes.  `Program` is a node kind like the others (the
traverser dispatches on it), so it is a constructor here; the parser only
ever produces it at the root. -/
inductive SrcNode where
  | program (body : List SrcNode)
  | callExpression (callName : String) (params : List SrcNode)
  | numberLiteral (value : String)
  | stringLiteral (value : String)

def SrcNode.isCallExpression : SrcNode → Bool
  | .callExpression _ _ => true
  | _ => false

/-- `node.value` as the transformer's literal visitors read it (the dispatch
guarantees the node is a literal there). -/
def SrcNode.valueOf : SrcNode → String
  | .numberLiteral v => v
  | .stringLiteral v => v
  | _ => ""

/-- `node.name` as the transformer's `CallExpression` visitor reads it. -/
def SrcNode.nameOf : SrcNode → String
  | .callExpression n _ => n
  | _ => ""

/-! ## Parser

Embeds `parser(tokens)` with its inner recursive `walk` function.  The
source reads `tokens[current]` without a bounds check; when `current` is past
the end that read yields `undefined` and the subsequent property access
(`token.type`, `token.value`) throws a host `TypeError`, modelled as
`ParseErr.outOfRange`.  `throw new TypeError(token.type)` for a token the
expression rule does not recognize is `ParseErr.unexpected`. -/

inductive ParseErr where
  /-- `tokens[current]` is `undefined` and a property of it is read: the
  out-of-range access on the token sequence. -/
  | outOfRange
  /-- `throw new TypeError(token.type)`: an unconsumable token at an
  expression position (a `name` token, or a `)` paren). -/
  | unexpected (t : TokenType)
deriving DecidableEq

inductive PResult (α : Type) where
  | ok (val : α) (next : Nat)
  | err (e : ParseErr)
  | fuelOut

mutual

/-- The source's `walk()`, taking the cursor explicitly. -/
def walk : Nat → List Token → Nat → PResult SrcNode
  | 0, _, _ => .fuelOut
  | fuel + 1, tokens, c =>
    match tokens[c]? with
    | none => .err .outOfRange
    | some token =>
      if token.type = .number then .ok (.numberLiteral token.value) (c + 1)
      else if token.type = .string then .ok (.stringLiteral token.value) (c + 1)
      else if token.type = .paren ∧ token.value = "(" then
        -- `token = tokens[++current]; name: token.value` — note: no check that
        -- this token is a `name` token; its text is taken as the callee name.
        match tokens[c + 1]? with
        | none => .err .outOfRange
        | some nameToken =>
          match walkParams fuel tokens (c + 2) with
          | .ok params n => .ok (.callExpression nameToken.value params) n
          | .err e => .err e
          | .fuelOut => .fuelOut
      else .err (.unexpected token.type)

/-- The source's `while (token is not a closing paren) { node.params.push(walk()); }`
loop inside `walk`, including the `current++` that skips the closing paren. -/
def walkParams : Nat → List Token → Nat → PResult (List SrcNode)
  | 0, _, _ => .fuelOut
  | fuel + 1, tokens, c =>
    match tokens[c]? with
    | none => .err .outOfRange
    | some token =>
      if token.type = .paren ∧ token.value = ")" then .ok [] (c + 1)
      else
        match walk fuel tokens c with
        | .ok node n =>
          match walkParams fuel tokens n with
          | .ok params m => .ok (node :: params) m
          | .err e => .err e
          | .fuelOut => .fuelOut
        | .err e => .err e
        | .fuelOut => .fuelOut

end

inductive ParseResult where
  | ok (ast : SrcNode)
  | err (e : ParseErr)
  | fuelOut

/-- The top-level `while (current < tokens.length) { ast.body.push(walk()); }`. -/
def parseLoop : Nat → List Token → Nat → List SrcNode → ParseResult
  | 0, tokens, c, body =>
    if c < tokens.length then .fuelOut else .ok (.program body)
  | fuel + 1, tokens, c, body =>
    if c < tokens.length then
      match walk (2 * tokens.length + 1) tokens c with
      | .ok node n => parseLoop fuel tokens n (body ++ [node])
      | .err e => .err e
      | .fuelOut => .fuelOut
    else .ok (.program body)

/-- `parser(tokens)`.  The fuel amounts are sufficient: `walk` consumes at
least one token per unit of recursion depth it spends (`walk_no_fuelOut`),
and every loop iteration advances the cursor (`parser_no_fuelOut`). -/
def parser (tokens : List Token) : ParseResult :=
  parseLoop tokens.length tokens 0 []

/-! ## Target abstract syntax tree -/

inductive TgtNode where
  | program (body : List TgtNode)
  | expressionStatement (expression : TgtNode)
  | callExpression (callee : TgtNode) (arguments : List TgtNode)
  | identifier (idName : String)
  | numberLiteral (value : String)
  | stringLiteral (value : String)

def TgtNode.isExpressionStatement : TgtNode → Bool
  | .expressionStatement _ => true
  | _ => false

/-! ## Traverser

Embeds `traverser(ast, visitor)`: a generic depth-first walk dispatching
per-node-kind `enter`/`exit` callbacks, each receiving `(node, parent)`.
Callbacks act on a state `σ` (the JavaScript heap the real callbacks mutate)
and may fail with `ε`.  A node is identified by its `NodePath` (the list of child
indices from the root): this models object identity for the trees at hand. -/

abbrev NodePath := List Nat

/-- One visitor entry: the optional `enter` and `exit` callbacks for a node
kind.  A callback receives the node, its path, and its parent (with the
parent's path), `none` for the root. -/
structure Handlers (σ ε : Type) where
  onEnter : Option (SrcNode → NodePath → Option (SrcNode × NodePath) → σ → Except ε σ)
  onExit : Option (SrcNode → NodePath → Option (SrcNode × NodePath) → σ → Except ε σ)

/-- A visitor: for each node kind, optionally a `Handlers` entry
(`visitor[node.type]` in the source). -/
structure Visitor (σ ε : Type) where
  onProgram : Option (Handlers σ ε)
  onCallExpression : Option (Handlers σ ε)
  onNumberLiteral : Option (Handlers σ ε)
  onStringLiteral : Option (Handlers σ ε)

def methodsFor {σ ε : Type} (visitor : Visitor σ ε) : SrcNode → Option (Handlers σ ε)
  | .program _ => visitor.onProgram
  | .callExpression _ _ => visitor.onCallExpression
  | .numberLiteral _ => visitor.onNumberLiteral
  | .stringLiteral _ => visitor.onStringLiteral

/-- `if (methods && methods.enter) methods.enter(node, parent)` — run an
optional callback, keeping the state unchanged when absent. -/
def runHandler {σ ε : Type}
    (h : Option (SrcNode → NodePath → Option (SrcNode × NodePath) → σ → Except ε σ))
    (node : SrcNode) (path : NodePath) (parent : Option (SrcNode × NodePath)) (s : σ) :
    Except ε σ :=
  match h with
  | some f => f node path parent s
  | none => .ok s

mutual

/-- `traverseNode(node, parent)`: enter callback, then the children in
structural order, then the exit callback.  The source's `default: throw`
branch for an unknown node kind has no counterpart because `SrcNode` is a
closed type covering exactly the kinds the switch handles. -/
def traverseNode {σ ε : Type} (visitor : Visitor σ ε) (node : SrcNode) (path : NodePath)
    (parent : Option (SrcNode × NodePath)) (s : σ) : Except ε σ :=
  match runHandler ((methodsFor visitor node).bind Handlers.onEnter) node path parent s with
  | .error e => .error e
  | .ok s1 =>
    match
      (match node with
       | .program body => traverseArray visitor body node path 0 s1
       | .callExpression _ params => traverseArray visitor params node path 0 s1
       | .numberLiteral _ => .ok s1
       | .stringLiteral _ => .ok s1 : Except ε σ) with
    | .error e => .error e
    | .ok s2 => runHandler ((methodsFor visitor node).bind Handlers.onExit) node path parent s2

/-- `traverseArray(array, parent)`: visit each child in order, threading the
state; `idx` tracks the child index so children get distinct paths. -/
def traverseArray {σ ε : Type} (visitor : Visitor σ ε) (children : List SrcNode)
    (parentNode : SrcNode) (parentPath : NodePath) (idx : Nat) (s : σ) : Except ε σ :=
  match children with
  | [] => .ok s
  | child :: rest =>
    match traverseNode visitor child (parentPath ++ [idx]) (some (parentNode, parentPath)) s with
    | .error e => .error e
    | .ok s' => traverseArray visitor rest parentNode parentPath (idx + 1) s'

end

/-- `traverser(ast, visitor)` kicks the walk off at the root with a `null`
parent. -/
def traverser {σ ε : Type} (visitor : Visitor σ ε) (ast : SrcNode) (s : σ) : Except ε σ :=
  traverseNode visitor ast [] none s

/-! ## Transformer

Embeds `transformer(ast)`.  The target tree under construction is an arena of
ordered collections: row 0 is `newAst.body`, and each target `CallExpression`
owns a fresh row holding its `arguments`.  An entry is a finished literal or
a reference to a call's row.  The `_context` property the source attaches to
source nodes becomes the table `ctx` from node paths to row indices.  Pushing
into `parent._context` appends to the parent's row. -/

inductive TEntry where
  | numberLiteral (value : String)
  | stringLiteral (value : String)
  /-- A target `CallExpression` named `callName` whose `arguments` collection
  is arena row `argsIdx`; `wrapped` records whether it was wrapped in an
  `ExpressionStatement` before being pushed. -/
  | callRef (callName : String) (argsIdx : Nat) (wrapped : Bool)
deriving DecidableEq

structure TransState where
  arena : List (List TEntry)
  ctx : List (NodePath × Nat)

inductive TransErr where
  /-- The callback read `parent.type` or `parent._context` with `parent` null. -/
  | nullParent
  /-- `parent._context` was never assigned: `undefined.push` throws. -/
  | missingContext
  /-- Artifact of materializing the arena back into a tree; proved
  unreachable for states the traversal produces. -/
  | readbackFailure
deriving DecidableEq

/-- Reading `node._context`: the most recent assignment wins, like a property
write. -/
def lookupCtx : List (NodePath × Nat) → NodePath → Option Nat
  | [], _ => none
  | entry :: rest, p => if entry.1 = p then some entry.2 else lookupCtx rest p

/-- `collection.push(e)` on arena row `i`. -/
def pushAt (s : TransState) (i : Nat) (e : TEntry) : TransState :=
  ⟨s.arena.set i (s.arena.getD i [] ++ [e]), s.ctx⟩

/-- The `NumberLiteral` visitor:
`parent._context.push({type:'NumberLiteral', value.node.value})`. -/
def numberLiteralEnter (node : SrcNode) (_path : NodePath)
    (parent : Option (SrcNode × NodePath)) (s : TransState) : Except TransErr TransState :=
  match parent with
  | none => .error .nullParent
  | some (_, parentPath) =>
    match lookupCtx s.ctx parentPath with
    | none => .error .missingContext
    | some i => .ok (pushAt s i (.numberLiteral node.valueOf))

/-- The `StringLiteral` visitor, same shape. -/
def stringLiteralEnter (node : SrcNode) (_path : NodePath)
    (parent : Option (SrcNode × NodePath)) (s : TransState) : Except TransErr TransState :=
  match parent with
  | none => .error .nullParent
  | some (_, parentPath) =>
    match lookupCtx s.ctx parentPath with
    | none => .error .missingContext
    | some i => .ok (pushAt s i (.stringLiteral node.valueOf))

/-- The `CallExpression` visitor: build the target call with a fresh (empty)
`arguments` row, set `node._context` to that row, wrap in an
`ExpressionStatement` unless the parent is itself a `CallExpression`, and
push the result into `parent._context`. -/
def callExpressionEnter (node : SrcNode) (path : NodePath)
    (parent : Option (SrcNode × NodePath)) (s : TransState) : Except TransErr TransState :=
  let argsIdx := s.arena.length
  let s1 : TransState := ⟨s.arena ++ [[]], (path, argsIdx) :: s.ctx⟩
  match parent with
  | none => .error .nullParent
  | some (parentNode, parentPath) =>
    let wrapped := !parentNode.isCallExpression
    match lookupCtx s1.ctx parentPath with
    | none => .error .missingContext
    | some i => .ok (pushAt s1 i (.callRef node.nameOf argsIdx wrapped))

/-- The transformer's visitor: enter callbacks for the two literal kinds and
for `CallExpression`; nothing for `Program`, no exit callbacks. -/
def transVisitor : Visitor TransState TransErr :=
  ⟨none,
   some ⟨some callExpressionEnter, none⟩,
   some ⟨some numberLiteralEnter, none⟩,
   some ⟨some stringLiteralEnter, none⟩⟩

mutual

/-- Materialize one arena entry as a target node. -/
def readEntry (arena : List (List TEntry)) : Nat → TEntry → Option TgtNode
  | _, .numberLiteral v => some (.numberLiteral v)
  | _, .stringLiteral v => some (.stringLiteral v)
  | 0, .callRef _ _ _ => none
  | fuel + 1, .callRef callName argsIdx wrapped =>
    match readEntryList arena fuel (arena.getD argsIdx []) with
    | none => none
    | some args =>
      let expression := TgtNode.callExpression (.identifier callName) args
      some (if wrapped then .expressionStatement expression else expression)

/-- Materialize a list of arena entries in order. -/
def readEntryList (arena : List (List TEntry)) : Nat → List TEntry → Option (List TgtNode)
  | _, [] => some []
  | 0, _ :: _ => none
  | fuel + 1, e :: es =>
    match readEntry arena fuel e, readEntryList arena fuel es with
    | some t, some ts => some (t :: ts)
    | _, _ => none

end

/-- Enough fuel to materialize any entry of a given arena (shown sufficient
in `readEntryList_total`). -/
def readFuel (arena : List (List TEntry)) : Nat :=
  (arena.length + 1) * ((arena.map List.length).sum + 2)

/-- `transformer(ast)`: create `newAst` with an empty body (row 0), assign
`ast._context = newAst.body`, traverse with the visitor, and return the
finished `newAst`. -/
def transformer (ast : SrcNode) : Except TransErr TgtNode :=
  let s0 : TransState := ⟨[[]], [([], 0)]⟩
  match traverser transVisitor ast s0 with
  | .error e => .error e
  | .ok s =>
    match readEntryList s.arena (readFuel s.arena) (s.arena.getD 0 []) with
    | none => .error .readbackFailure
    | some body => .ok (.program body)

/-! ## Code generator -/

mutual

/-- `codeGenerator(node)`: recursively render the target tree.  The
`default: throw new TypeError(node.type)` branch has no counterpart because
`TgtNode` is a closed type covering exactly the kinds the switch handles. -/
def codeGenerator : TgtNode → String
  | .program body => String.intercalate "\n" (codeGeneratorList body)
  | .expressionStatement expression => codeGenerator expression ++ ";"
  | .callExpression callee arguments =>
    codeGenerator callee ++ "(" ++ String.intercalate ", " (codeGeneratorList arguments) ++ ")"
  | .identifier idName => idName
  | .numberLiteral v => v
  | .stringLiteral v => "\"" ++ v ++ "\""

/-- `node.body.map(codeGenerator)` / `node.arguments.map(codeGenerator)`. -/
def codeGeneratorList : List TgtNode → List String
  | [] => []
  | t :: ts => codeGenerator t :: codeGeneratorList ts

end

/-! ## The compiler pipeline -/

inductive CompileResult where
  | ok (output : String)
  | lexUnknownChar (c : Char)
  | lexDiverge
  | parseFail (e : ParseErr)
  | transFail (e : TransErr)
  /-- Fuel artifact of the embedding, proved unreachable. -/
  | modelFuelOut
deriving DecidableEq

/-- `compiler(input)`: the four stages composed in order, propagating the
first failure. -/
def compiler (input : String) : CompileResult :=
  match tokenizer input with
  | .ok tokens =>
    match parser tokens with
    | .ok ast =>
      match transformer ast with
      | .ok newAst => .ok (codeGenerator newAst)
      | .error e => .transFail e
    | .err e => .parseFail e
    | .fuelOut => .modelFuelOut
  | .unknownChar c => .lexUnknownChar c
  | .diverge => .lexDiverge
  | .fuelOut => .modelFuelOut

/-! ## Shape predicates on trees -/

mutual

/-- A source node of expression shape: no `Program` node inside.  The parser's
`walk` only ever builds such nodes. -/
def exprShaped : SrcNode → Bool
  | .program _ => false
  | .callExpression _ params => exprShapedList params
  | .numberLiteral _ => true
  | .stringLiteral _ => true

def exprShapedList : List SrcNode → Bool
  | [] => true
  | n :: ns => exprShaped n && exprShapedList ns

end

mutual

/-- No `ExpressionStatement` occurs in argument position anywhere inside the
node (statement wrapping is reserved for `Program.body`). -/
def argsStmtFree : TgtNode → Bool
  | .program body => argsStmtFreeList body
  | .expressionStatement expression => argsStmtFree expression
  | .callExpression callee arguments => argsStmtFree callee && noStmtList arguments
  | .identifier _ => true
  | .numberLiteral _ => true
  | .stringLiteral _ => true

/-- Every element of the list satisfies `argsStmtFree`. -/
def argsStmtFreeList : List TgtNode → Bool
  | [] => true
  | t :: ts => argsStmtFree t && argsStmtFreeList ts

/-- No element of the list is an `ExpressionStatement`, and all are
`argsStmtFree`: the condition on an `arguments` collection. -/
def noStmtList : List TgtNode → Bool
  | [] => true
  | t :: ts => !t.isExpressionStatement && argsStmtFree t && noStmtList ts

end

/-! ## Transformer state invariants -/

/-- Every `_context` assignment points at an existing arena row. -/
def ctxBound (s : TransState) : Prop :=
  ∀ p k, (p, k) ∈ s.ctx → k < s.arena.length

/-- Every call reference stored in row `i` points at a strictly later,
existing row: the arguments collection of a call is always created after the
collection the call itself is pushed into. -/
def arenaRefsOk (arena : List (List TEntry)) : Prop :=
  ∀ i nm j w, TEntry.callRef nm j w ∈ arena.getD i [] → i < j ∧ j < arena.length

/-- Only row 0 (`newAst.body`) ever holds wrapped entries: an `arguments`
collection never receives an `ExpressionStatement`. -/
def arenaUnwrapped (arena : List (List TEntry)) : Prop :=
  ∀ i nm j, 1 ≤ i → TEntry.callRef nm j true ∈ arena.getD i [] → False

/-- The arena entry a source node contributes to its parent's collection:
literals carry their value over, a call contributes a reference that is
wrapped exactly when the parent is not a `CallExpression`. -/
def entryMatches (parentIsCall : Bool) : SrcNode → TEntry → Prop
  | .numberLiteral v, .numberLiteral w => v = w
  | .stringLiteral v, .stringLiteral w => v = w
  | .callExpression n _, .callRef m _ w => n = m ∧ w = !parentIsCall
  | _, _ => False

/-- What materializing an arena entry yields: literals map to target
literals, and a call reference to a `CallExpression` with an `Identifier`
callee, wrapped in an `ExpressionStatement` exactly when flagged. -/
def entryReads : TEntry → TgtNode → Prop
  | .numberLiteral v, t => t = .numberLiteral v
  | .stringLiteral v, t => t = .stringLiteral v
  | .callRef nm _ w, t => ∃ args,
      t = if w then .expressionStatement (.callExpression (.identifier nm) args)
        else .callExpression (.identifier nm) args

/-! ## Token renderings (for the whitespace-insensitivity claim)

An input "differing only in inter-token whitespace" is formalized as a
rendering of a token list with arbitrary whitespace runs between the token
texts. -/

/-- The characters a token was scanned from (a string token includes its
delimiting quotes). -/
def tokenChars (t : Token) : List Char :=
  match t.type with
  | .string => '"' :: t.value.data ++ ['"']
  | _ => t.value.data

/-- The token's text is one the scanner could actually have produced. -/
def wfToken (t : Token) : Bool :=
  match t.type with
  | .paren => t.value = "(" || t.value = ")"
  | .number => !t.value.data.isEmpty && t.value.data.all isDigitChar
  | .string => t.value.data.all (fun c => c ≠ '"')
  | .name => !t.value.data.isEmpty && t.value.data.all isLetterChar

/-- Whether two adjacent tokens survive having no whitespace between them:
two `number` tokens or two `name` tokens would merge into one. -/
def mergeSafe (t1 t2 : Token) : Bool :=
  match t1.type, t2.type with
  | .number, .number => false
  | .name, .name => false
  | _, _ => true

/-- `renderSep [(ws₀,t₁),(ws₁,t₂),…] trail` is the input
`ws₀ ++ t₁ ++ ws₁ ++ t₂ ++ … ++ trail`. -/
def renderSep : List (List Char × Token) → List Char → List Char
  | [], trail => trail
  | (ws, t) :: rest, trail => ws ++ tokenChars t ++ renderSep rest trail

/-- Each separator is all-whitespace, each token well formed, and an empty
separator only sits between tokens that cannot merge. -/
def okPairs : List (List Char × Token) → Bool
  | [] => true
  | [(ws, t)] => ws.all isWhitespaceChar && wfToken t
  | (ws1, t1) :: (ws2, t2) :: rest =>
    ws1.all isWhitespaceChar && wfToken t1 && (!ws2.isEmpty || mergeSafe t1 t2) &&
    okPairs ((ws2, t2) :: rest)

/-- A valid rendering: `okPairs`, an all-whitespace tail, and — because a
trailing letter run makes the scanner diverge — a nonempty tail when the last
token is a `name`. -/
def okRender (pairs : List (List Char × Token)) (trail : List Char) : Bool :=
  okPairs pairs && trail.all isWhitespaceChar &&
  (!trail.isEmpty ||
    match pairs.getLast? with
    | some p => !(p.2.type == TokenType.name)
    | none => true)

/-! ## Character-class facts -/

/-- Every JavaScript whitespace character is a control character at or below
carriage return, the plain space, or a code point at or above U+00A0. -/
theorem isWhitespaceChar_ranges {c : Char} (h : isWhitespaceChar c = true) :
    c ≤ '\r' ∨ c = ' ' ∨ ' ' ≤ c := by
  unfold isWhitespaceChar at h
  simp only [Bool.or_eq_true, Bool.and_eq_true, decide_eq_true_eq] at h
  rcases h with (((((((((((((h|h)|h)|h)|h)|h)|h)|h)|h)|h)|h)|h)|h)|h)|h
  all_goals try (subst h; decide)
  exact Or.inr (Or.inr (le_trans (by decide) h.1))

theorem isWhitespaceChar_props {c : Char} (h : isWhitespaceChar c = true) :
    c ≠ '(' ∧ c ≠ ')' ∧ c ≠ '"' ∧ isDigitChar c = false ∧ isLetterChar c = false := by
  have hr := isWhitespaceChar_ranges h
  refine ⟨?_, ?_, ?_, ?_, ?_⟩
  · rintro rfl; exact absurd h (by decide)
  · rintro rfl; exact absurd h (by decide)
  · rintro rfl; exact absurd h (by decide)
  · rw [Bool.eq_false_iff]
    intro hd
    simp only [isDigitChar, Bool.and_eq_true, decide_eq_true_eq] at hd
    rcases hr with hr | hr | hr
    · exact absurd (le_trans hd.1 hr) (by decide)
    · subst hr; exact absurd hd.1 (by decide)
    · exact absurd (le_trans hr hd.2) (by decide)
  · rw [Bool.eq_false_iff]
    intro hd
    simp only [isLetterChar, Bool.or_eq_true, Bool.and_eq_true, decide_eq_true_eq] at hd
    rcases hd with ⟨h1, h2⟩ | ⟨h1, h2⟩ <;> rcases hr with hr | hr | hr
    · exact absurd (le_trans h1 hr) (by decide)
    · subst hr; exact absurd h1 (by decide)
    · exact absurd (le_trans hr h2) (by decide)
    · exact absurd (le_trans h1 hr) (by decide)
    · subst hr; exact absurd h1 (by decide)
    · exact absurd (le_trans hr h2) (by decide)

theorem isDigitChar_props {c : Char} (h : isDigitChar c = true) :
    c ≠ '(' ∧ c ≠ ')' ∧ isWhitespaceChar c = false ∧ c ≠ '"' := by
  refine ⟨?_, ?_, ?_, ?_⟩
  · rintro rfl; exact absurd h (by decide)
  · rintro rfl; exact absurd h (by decide)
  · rw [Bool.eq_false_iff]
    intro hw
    rw [(isWhitespaceChar_props hw).2.2.2.1] at h
    exact absurd h (by decide)
  · rintro rfl; exact absurd h (by decide)

theorem isLetterChar_props {c : Char} (h : isLetterChar c = true) :
    c ≠ '(' ∧ c ≠ ')' ∧ isWhitespaceChar c = false ∧ isDigitChar c = false ∧ c ≠ '"' := by
  refine ⟨?_, ?_, ?_, ?_, ?_⟩
  · rintro rfl; exact absurd h (by decide)
  · rintro rfl; exact absurd h (by decide)
  · rw [Bool.eq_false_iff]
    intro hw
    rw [(isWhitespaceChar_props hw).2.2.2.2] at h
    exact absurd h (by decide)
  · rw [Bool.eq_false_iff]
    intro hd
    simp only [isLetterChar, Bool.or_eq_true, Bool.and_eq_true, decide_eq_true_eq] at h
    simp only [isDigitChar, Bool.and_eq_true, decide_eq_true_eq] at hd
    rcases h with ⟨h1, _⟩ | ⟨h1, _⟩
    · exact absurd (le_trans h1 hd.2) (by decide)
    · exact absurd (le_trans h1 hd.2) (by decide)
  · rintro rfl; exact absurd h (by decide)

/-! ## Run-loop lemmas -/

theorem runWhile_lengths (p : Char → Bool) :
    ∀ l : List Char, (runWhile p l).1.length + (runWhile p l).2.length = l.length := by
  intro l
  induction l with
  | nil => simp [runWhile]
  | cons c cs ih =>
    by_cases h : p c
    · simp only [runWhile, h, if_pos]
      simp only [List.length_cons]
      omega
    · simp [runWhile, h]

theorem runWhile_snd_length_le (p : Char → Bool) (l : List Char) :
    (runWhile p l).2.length ≤ l.length := by
  have := runWhile_lengths p l
  omega

theorem runWhile_cons_pos {p : Char → Bool} {c : Char} (h : p c = true) (cs : List Char) :
    runWhile p (c :: cs) = (c :: (runWhile p cs).1, (runWhile p cs).2) := by
  simp [runWhile, h]

theorem runWhile_append {p : Char → Bool} :
    ∀ (l r : List Char), (∀ c ∈ l, p c = true) → (∀ c, r.head? = some c → p c = false) →
    runWhile p (l ++ r) = (l, r) := by
  intro l
  induction l with
  | nil =>
    intro r _ hr
    match r with
    | [] => rfl
    | c :: cs =>
      have := hr c rfl
      simp [runWhile, this]
  | cons c cs ih =>
    intro r hl hr
    have hc : p c = true := hl c (by simp)
    rw [show ((c :: cs) ++ r) = c :: (cs ++ r) from rfl, runWhile_cons_pos hc,
      ih r (fun d hd => hl d (by simp [hd])) hr]

theorem splitAtQuote_some_length :
    ∀ l v rest, splitAtQuote l = some (v, rest) → rest.length < l.length := by
  intro l
  induction l with
  | nil => intro v rest h; simp [splitAtQuote] at h
  | cons c cs ih =>
    intro v rest h
    have h' : (if c = '"' then some (([] : List Char), cs)
        else (splitAtQuote cs).map (fun q => (c :: q.1, q.2))) = some (v, rest) := h
    by_cases hc : c = '"'
    · rw [if_pos hc] at h'
      simp only [Option.some.injEq, Prod.mk.injEq] at h'
      obtain ⟨_, h2⟩ := h'
      subst h2
      simp
    · rw [if_neg hc, Option.map_eq_some'] at h'
      obtain ⟨⟨v', rest'⟩, hsp, heq⟩ := h'
      simp only [Prod.mk.injEq] at heq
      obtain ⟨_, h2⟩ := heq
      subst h2
      have := ih v' rest' hsp
      simp only [List.length_cons]
      omega

theorem splitAtQuote_append :
    ∀ (v r : List Char), (∀ c ∈ v, c ≠ '"') →
    splitAtQuote (v ++ '"' :: r) = some (v, r) := by
  intro v
  induction v with
  | nil => intro r _; simp [splitAtQuote]
  | cons c cs ih =>
    intro r hv
    have hc : c ≠ '"' := hv c (by simp)
    show (if c = '"' then some (([] : List Char), cs ++ '"' :: r)
      else (splitAtQuote (cs ++ '"' :: r)).map (fun q => (c :: q.1, q.2))) = some (c :: cs, r)
    rw [if_neg hc, ih r (fun d hd => hv d (by simp [hd]))]
    rfl

theorem splitAtQuote_none :
    ∀ l : List Char, (∀ c ∈ l, c ≠ '"') → splitAtQuote l = none := by
  intro l
  induction l with
  | nil => intro _; rfl
  | cons c cs ih =>
    intro h
    have hc : c ≠ '"' := h c (by simp)
    show (if c = '"' then some (([] : List Char), cs)
      else (splitAtQuote cs).map (fun q => (c :: q.1, q.2))) = none
    rw [if_neg hc, ih (fun d hd => h d (by simp [hd]))]
    rfl

/-! ## Scanner fuel sufficiency -/

theorem lexLoop_no_fuelOut :
    ∀ fuel (rest : List Char) tokens, rest.length ≤ fuel →
    lexLoop fuel rest tokens ≠ .fuelOut := by
  intro fuel
  induction fuel with
  | zero =>
    intro rest tokens h
    match rest with
    | [] => simp [lexLoop]
    | c :: _ => simp at h
  | succ fuel ih =>
    intro rest tokens h
    match rest with
    | [] => simp [lexLoop]
    | c :: rest' =>
      have hlen : rest'.length ≤ fuel := by
        simp only [List.length_cons] at h
        omega
      simp only [lexLoop]
      by_cases h1 : c = '('
      · rw [if_pos h1]; exact ih _ _ hlen
      · rw [if_neg h1]
        by_cases h2 : c = ')'
        · rw [if_pos h2]; exact ih _ _ hlen
        · rw [if_neg h2]
          by_cases h3 : isWhitespaceChar c
          · rw [if_pos h3]; exact ih _ _ hlen
          · rw [if_neg h3]
            by_cases h4 : isDigitChar c
            · rw [if_pos h4]
              have hr : (runWhile isDigitChar (c :: rest')).2.length ≤ rest'.length := by
                rw [runWhile_cons_pos h4]
                exact runWhile_snd_length_le isDigitChar rest'
              exact ih _ _ (le_trans hr hlen)
            · rw [if_neg h4]
              by_cases h5 : c = '"'
              · rw [if_pos h5]
                cases hsp : splitAtQuote rest' with
                | none => simp
                | some r =>
                  have := splitAtQuote_some_length rest' r.1 r.2 (by rw [hsp])
                  exact ih _ _ (by omega)
              · rw [if_neg h5]
                by_cases h6 : isLetterChar c
                · rw [if_pos h6]
                  by_cases hre : (runWhile isLetterChar (c :: rest')).2.isEmpty
                  · rw [if_pos hre]; simp
                  · rw [if_neg hre]
                    have hr : (runWhile isLetterChar (c :: rest')).2.length ≤ rest'.length := by
                      rw [runWhile_cons_pos h6]
                      exact runWhile_snd_length_le isLetterChar rest'
                    exact ih _ _ (le_trans hr hlen)
                · rw [if_neg h6]; simp

theorem tokenizer_no_fuelOut (input : String) : tokenizer input ≠ .fuelOut :=
  lexLoop_no_fuelOut input.length input.data [] le_rfl

/-- C7: the claim says the scanner terminates on every input and that a
letter run extending to end-of-input yields one `name` token with that run's
text.  The code instead loops forever there: once the run reaches the end,
`input[current]` is `undefined` and `LETTERS.test(undefined)` tests the
string `"undefined"`, which matches `/[a-z]/i`, so the `while` guard never
becomes false.  On the failing input `"abc"` the scanner diverges instead of
returning the `name` token `abc`. -/
theorem c7_scanner_diverges_on_trailing_letters : tokenizer "abc" = .diverge := rfl

/-- C5: the claim says an unterminated string literal makes the scanner fail
with a `LexError`.  The code instead loops forever: after end-of-input,
`char` is `undefined`, `undefined !== '"'` stays true, and the loop never
exits.  On the failing input `"abc` (opening quote, no closing quote) the
scanner diverges instead of raising any error. -/
theorem c5_scanner_diverges_on_unterminated_string : tokenizer "\"abc" = .diverge := rfl

/-! ## Parser: cursor bounds -/

theorem walk_bounds (tokens : List Token) : ∀ fuel,
    (∀ c node n, walk fuel tokens c = .ok node n → c < n ∧ n ≤ tokens.length) ∧
    (∀ c params m, walkParams fuel tokens c = .ok params m → c < m ∧ m ≤ tokens.length) := by
  intro fuel
  induction fuel with
  | zero =>
    constructor
    · intro c node n h; simp [walk] at h
    · intro c params m h; simp [walkParams] at h
  | succ fuel ih =>
    constructor
    · intro c node n h
      simp only [walk] at h
      match htc : tokens[c]? with
      | none => simp only [htc] at h; simp at h
      | some token =>
        simp only [htc] at h
        have hc : c < tokens.length := (List.getElem?_eq_some.mp htc).1
        by_cases h1 : token.type = .number
        · rw [if_pos h1] at h
          simp only [PResult.ok.injEq] at h
          omega
        · rw [if_neg h1] at h
          by_cases h2 : token.type = .string
          · rw [if_pos h2] at h
            simp only [PResult.ok.injEq] at h
            omega
          · rw [if_neg h2] at h
            by_cases h3 : token.type = .paren ∧ token.value = "("
            · rw [if_pos h3] at h
              match ht2 : tokens[c + 1]? with
              | none => simp only [ht2] at h; simp at h
              | some nameToken =>
                simp only [ht2] at h
                match hwp : walkParams fuel tokens (c + 2) with
                | .ok params n' =>
                  simp only [hwp, PResult.ok.injEq] at h
                  have := ih.2 (c + 2) params n' hwp
                  omega
                | .err e => simp only [hwp] at h; simp at h
                | .fuelOut => simp only [hwp] at h; simp at h
            · rw [if_neg h3] at h; simp at h
    · intro c params m h
      simp only [walkParams] at h
      match htc : tokens[c]? with
      | none => simp only [htc] at h; simp at h
      | some token =>
        simp only [htc] at h
        have hc : c < tokens.length := (List.getElem?_eq_some.mp htc).1
        by_cases h1 : token.type = .paren ∧ token.value = ")"
        · rw [if_pos h1] at h
          simp only [PResult.ok.injEq] at h
          omega
        · rw [if_neg h1] at h
          match hw : walk fuel tokens c with
          | .ok node n =>
            simp only [hw] at h
            have hb1 := ih.1 c node n hw
            match hwp : walkParams fuel tokens n with
            | .ok params' m' =>
              simp only [hwp, PResult.ok.injEq] at h
              have hb2 := ih.2 n params' m' hwp
              omega
            | .err e => simp only [hwp] at h; simp at h
            | .fuelOut => simp only [hwp] at h; simp at h
          | .err e => simp only [hw] at h; simp at h
          | .fuelOut => simp only [hw] at h; simp at h

/-! ## Parser: fuel sufficiency -/

theorem walk_no_fuelOut (tokens : List Token) : ∀ fuel,
    (∀ c, 2 * (tokens.length - c) + 1 ≤ fuel → walk fuel tokens c ≠ .fuelOut) ∧
    (∀ c, 2 * (tokens.length - c) + 2 ≤ fuel → walkParams fuel tokens c ≠ .fuelOut) := by
  intro fuel
  induction fuel with
  | zero =>
    constructor
    · intro c h; omega
    · intro c h; omega
  | succ fuel ih =>
    constructor
    · intro c hfuel
      simp only [walk]
      match htc : tokens[c]? with
      | none => simp only [htc]; simp
      | some token =>
        simp only [htc]
        have hc : c < tokens.length := (List.getElem?_eq_some.mp htc).1
        by_cases h1 : token.type = .number
        · rw [if_pos h1]; simp
        · rw [if_neg h1]
          by_cases h2 : token.type = .string
          · rw [if_pos h2]; simp
          · rw [if_neg h2]
            by_cases h3 : token.type = .paren ∧ token.value = "("
            · rw [if_pos h3]
              match ht2 : tokens[c + 1]? with
              | none => simp only [ht2]; simp
              | some nameToken =>
                simp only [ht2]
                have hwp := ih.2 (c + 2) (by omega)
                match hwpv : walkParams fuel tokens (c + 2) with
                | .ok params n' => simp only [hwpv]; simp
                | .err e => simp only [hwpv]; simp
                | .fuelOut => exact absurd hwpv hwp
            · rw [if_neg h3]; simp
    · intro c hfuel
      simp only [walkParams]
      match htc : tokens[c]? with
      | none => simp only [htc]; simp
      | some token =>
        simp only [htc]
        have hc : c < tokens.length := (List.getElem?_eq_some.mp htc).1
        by_cases h1 : token.type = .paren ∧ token.value = ")"
        · rw [if_pos h1]; simp
        · rw [if_neg h1]
          have hw := ih.1 c (by omega)
          match hwv : walk fuel tokens c with
          | .ok node n =>
            simp only [hwv]
            have hb := (walk_bounds tokens fuel).1 c node n hwv
            have hwp := ih.2 n (by omega)
            match hwpv : walkParams fuel tokens n with
            | .ok params' m' => simp only [hwpv]; simp
            | .err e => simp only [hwpv]; simp
            | .fuelOut => exact absurd hwpv hwp
          | .err e => simp only [hwv]; simp
          | .fuelOut => exact absurd hwv hw

theorem parseLoop_no_fuelOut (tokens : List Token) : ∀ fuel c body,
    tokens.length - c ≤ fuel → parseLoop fuel tokens c body ≠ .fuelOut := by
  intro fuel
  induction fuel with
  | zero =>
    intro c body h
    simp only [parseLoop]
    have hnc : ¬ c < tokens.length := by omega
    rw [if_neg hnc]
    simp
  | succ fuel ih =>
    intro c body h
    simp only [parseLoop]
    by_cases hc : c < tokens.length
    · rw [if_pos hc]
      have hw := (walk_no_fuelOut tokens (2 * tokens.length + 1)).1 c (by omega)
      match hwv : walk (2 * tokens.length + 1) tokens c with
      | .ok node n =>
        have hb := (walk_bounds tokens (2 * tokens.length + 1)).1 c node n hwv
        exact ih n (body ++ [node]) (by omega)
      | .err e => simp
      | .fuelOut => exact absurd hwv hw
    · rw [if_neg hc]; simp

theorem parser_no_fuelOut (tokens : List Token) : parser tokens ≠ .fuelOut :=
  parseLoop_no_fuelOut tokens tokens.length 0 [] (by omega)

/-! ## Parser output shape -/

theorem exprShapedList_append (l1 l2 : List SrcNode) :
    exprShapedList (l1 ++ l2) = (exprShapedList l1 && exprShapedList l2) := by
  induction l1 with
  | nil => simp [exprShapedList]
  | cons n ns ih => simp [exprShapedList, ih, Bool.and_assoc]

theorem walk_exprShaped (tokens : List Token) : ∀ fuel,
    (∀ c node n, walk fuel tokens c = .ok node n → exprShaped node = true) ∧
    (∀ c params m, walkParams fuel tokens c = .ok params m → exprShapedList params = true) := by
  intro fuel
  induction fuel with
  | zero =>
    constructor
    · intro c node n h; simp [walk] at h
    · intro c params m h; simp [walkParams] at h
  | succ fuel ih =>
    constructor
    · intro c node n h
      simp only [walk] at h
      match htc : tokens[c]? with
      | none => simp only [htc] at h; simp at h
      | some token =>
        simp only [htc] at h
        by_cases h1 : token.type = .number
        · rw [if_pos h1] at h
          simp only [PResult.ok.injEq] at h
          rw [← h.1]
          rfl
        · rw [if_neg h1] at h
          by_cases h2 : token.type = .string
          · rw [if_pos h2] at h
            simp only [PResult.ok.injEq] at h
            rw [← h.1]
            rfl
          · rw [if_neg h2] at h
            by_cases h3 : token.type = .paren ∧ token.value = "("
            · rw [if_pos h3] at h
              match ht2 : tokens[c + 1]? with
              | none => simp only [ht2] at h; simp at h
              | some nameToken =>
                simp only [ht2] at h
                match hwp : walkParams fuel tokens (c + 2) with
                | .ok params n' =>
                  simp only [hwp, PResult.ok.injEq] at h
                  rw [← h.1]
                  show exprShapedList params = true
                  exact ih.2 (c + 2) params n' hwp
                | .err e => simp only [hwp] at h; simp at h
                | .fuelOut => simp only [hwp] at h; simp at h
            · rw [if_neg h3] at h; simp at h
    · intro c params m h
      simp only [walkParams] at h
      match htc : tokens[c]? with
      | none => simp only [htc] at h; simp at h
      | some token =>
        simp only [htc] at h
        by_cases h1 : token.type = .paren ∧ token.value = ")"
        · rw [if_pos h1] at h
          simp only [PResult.ok.injEq] at h
          rw [← h.1]
          rfl
        · rw [if_neg h1] at h
          match hw : walk fuel tokens c with
          | .ok node n =>
            simp only [hw] at h
            match hwp : walkParams fuel tokens n with
            | .ok params' m' =>
              simp only [hwp, PResult.ok.injEq] at h
              rw [← h.1]
              show exprShapedList (node :: params') = true
              have e1 := ih.1 c node n hw
              have e2 := ih.2 n params' m' hwp
              simp [exprShapedList, e1, e2]
            | .err e => simp only [hwp] at h; simp at h
            | .fuelOut => simp only [hwp] at h; simp at h
          | .err e => simp only [hw] at h; simp at h
          | .fuelOut => simp only [hw] at h; simp at h

theorem parseLoop_shape (tokens : List Token) : ∀ fuel c bodyAcc ast,
    exprShapedList bodyAcc = true → parseLoop fuel tokens c bodyAcc = .ok ast →
    ∃ body, ast = .program body ∧ exprShapedList body = true := by
  intro fuel
  induction fuel with
  | zero =>
    intro c bodyAcc ast hacc h
    simp only [parseLoop] at h
    by_cases hc : c < tokens.length
    · rw [if_pos hc] at h; simp at h
    · rw [if_neg hc] at h
      simp only [ParseResult.ok.injEq] at h
      exact ⟨bodyAcc, h.symm, hacc⟩
  | succ fuel ih =>
    intro c bodyAcc ast hacc h
    simp only [parseLoop] at h
    by_cases hc : c < tokens.length
    · rw [if_pos hc] at h
      match hwv : walk (2 * tokens.length + 1) tokens c with
      | .ok node n =>
        simp only [hwv] at h
        have hsh := (walk_exprShaped tokens (2 * tokens.length + 1)).1 c node n hwv
        refine ih n (bodyAcc ++ [node]) ast ?_ h
        rw [exprShapedList_append]
        simp [exprShapedList, hacc, hsh]
      | .err e => simp only [hwv] at h; simp at h
      | .fuelOut => simp only [hwv] at h; simp at h
    · rw [if_neg hc] at h
      simp only [ParseResult.ok.injEq] at h
      exact ⟨bodyAcc, h.symm, hacc⟩

theorem parser_shape {tokens : List Token} {ast : SrcNode} (h : parser tokens = .ok ast) :
    ∃ body, ast = .program body ∧ exprShapedList body = true :=
  parseLoop_shape tokens tokens.length 0 [] ast rfl h

/-! ## C9: empty input -/

/-- C9: an empty token sequence parses to a `Program` with an empty body, and
compiling the empty string yields the empty string. -/
theorem c9_empty_input : parser [] = .ok (.program []) ∧ compiler "" = .ok "" :=
  ⟨rfl, rfl⟩

/-! ## C4: the token after a paren-open is not checked -/

/-- C4 counterexample: in the token sequence for `(5)` the token immediately
following the paren-open is a `number` token, yet `parse` succeeds — taking
the text `5` as the call's name — instead of failing with any
"expected callee name" `ParseError`. -/
theorem c4_counterexample :
    parser [⟨.paren, "("⟩, ⟨.number, "5"⟩, ⟨.paren, ")"⟩] =
      .ok (.program [.callExpression "5" []]) := rfl

/-- C4 amended: the parser never inspects the kind of the token following a
paren-open; whatever that token is, its text becomes the call's name: for
every token `t`, parsing `[paren-open, t, paren-close]` succeeds with a
single `CallExpression` named by `t`'s text and no parameters. -/
theorem c4_callee_kind_unchecked (t : Token) :
    parser [⟨.paren, "("⟩, t, ⟨.paren, ")"⟩] =
      .ok (.program [.callExpression t.value []]) := by
  simp [parser, parseLoop, walk, walkParams]

/-! ## C6: running off the end of the tokens mid-call -/

theorem walkParams_all_numbers (tokens : List Token) : ∀ fuel c,
    (∀ k t, c ≤ k → tokens[k]? = some t → t.type = .number) →
    walkParams fuel tokens c = .err .outOfRange ∨ walkParams fuel tokens c = .fuelOut := by
  intro fuel
  induction fuel with
  | zero => intro c _; right; rfl
  | succ fuel ih =>
    intro c h
    simp only [walkParams]
    match htc : tokens[c]? with
    | none => simp [htc]
    | some token =>
      simp only [htc]
      have htn : token.type = .number := h c token le_rfl htc
      have h1 : ¬(token.type = .paren ∧ token.value = ")") := by
        rw [htn]; rintro ⟨h', _⟩; cases h'
      rw [if_neg h1]
      match fuel with
      | 0 => right; rfl
      | fuel' + 1 =>
        have hw : walk (fuel' + 1) tokens c = .ok (.numberLiteral token.value) (c + 1) := by
          simp only [walk, htc]
          rw [if_pos htn]
        rcases ih (c + 1) (fun k t hk ht => h k t (by omega) ht) with h2 | h2
        · simp [hw, h2]
        · simp [hw, h2]

/-- C6 counterexample: for the token sequence consisting of a single
paren-open — which ends while the call it opens is still unclosed — `parse`
fails by reading past the end of the token sequence (the host `TypeError`
from accessing a property of `undefined`), not with any `ParseError` value
that carries an "unexpected end of tokens" kind; no such error kind exists in
the code. -/
theorem c6_counterexample : parser [⟨.paren, "("⟩] = .err .outOfRange := rfl

/-- C6 amended: when the token sequence ends while a call is still open, the
failure is the out-of-range access on the token sequence, not a dedicated
"unexpected end of tokens" `ParseError`: for every sequence of `number`
tokens `ts`, parsing `paren-open :: ts` fails with the out-of-range access. -/
theorem c6_open_call_out_of_range (ts : List Token)
    (h : ∀ t ∈ ts, t.type = .number) :
    parser (⟨.paren, "("⟩ :: ts) = .err .outOfRange := by
  match ts with
  | [] => rfl
  | t0 :: ts' =>
    have hlen : (⟨.paren, "("⟩ :: t0 :: ts' : List Token).length = ts'.length + 2 := by
      simp
    show parseLoop (⟨.paren, "("⟩ :: t0 :: ts' : List Token).length _ 0 [] = _
    rw [hlen]
    simp only [parseLoop]
    rw [if_pos (by simp)]
    have hw : walk (2 * (⟨.paren, "("⟩ :: t0 :: ts' : List Token).length + 1)
        (⟨.paren, "("⟩ :: t0 :: ts') 0 = .err .outOfRange := by
      rw [hlen]
      simp only [walk, List.getElem?_cons_zero, List.getElem?_cons_succ]
      rw [if_neg (by simp), if_neg (by simp), if_pos (by simp)]
      have hnums : ∀ k t, 2 ≤ k →
          (⟨.paren, "("⟩ :: t0 :: ts' : List Token)[k]? = some t → t.type = .number := by
        intro k t hk ht
        match k, hk with
        | k' + 2, _ =>
          simp only [List.getElem?_cons_succ] at ht
          exact h t (List.mem_cons_of_mem _ (List.getElem?_mem ht))
      rcases walkParams_all_numbers _ (2 * (ts'.length + 2)) 2 hnums with h2 | h2
      · simp only [h2]
      · exfalso
        refine (walk_no_fuelOut (⟨.paren, "("⟩ :: t0 :: ts') (2 * (ts'.length + 2))).2 2 ?_ h2
        rw [hlen]
        omega
    simp only [hw]

/-! ## Transformer state: basic lemmas -/

theorem lookupCtx_mem : ∀ (ctx : List (NodePath × Nat)) (p : NodePath) (k : Nat),
    lookupCtx ctx p = some k → (p, k) ∈ ctx := by
  intro ctx
  induction ctx with
  | nil => intro p k h; simp [lookupCtx] at h
  | cons entry rest ih =>
    intro p k h
    obtain ⟨q, j⟩ := entry
    simp only [lookupCtx] at h
    by_cases he : q = p
    · subst he
      rw [if_pos rfl] at h
      simp only [Option.some.injEq] at h
      subst h
      exact List.mem_cons_self _ _
    · rw [if_neg he] at h
      exact List.mem_cons_of_mem _ (ih p k h)

theorem lookupCtx_cons (q : NodePath) (j : Nat) (ctx : List (NodePath × Nat)) (p : NodePath) :
    lookupCtx ((q, j) :: ctx) p = if q = p then some j else lookupCtx ctx p := rfl

theorem getD_oob {arena : List (List TEntry)} {k : Nat} (hk : arena.length ≤ k) :
    arena.getD k [] = [] := by
  rw [List.getD_eq_getElem?_getD, List.getElem?_eq_none hk]
  rfl

theorem getD_append_nil_row (arena : List (List TEntry)) (k : Nat) :
    (arena ++ [[]]).getD k [] = arena.getD k [] := by
  rcases lt_trichotomy k arena.length with h | h | h
  · rw [List.getD_eq_getElem?_getD, List.getElem?_append_left h, ← List.getD_eq_getElem?_getD]
  · subst h
    rw [List.getD_eq_getElem?_getD, List.getElem?_concat_length, getD_oob le_rfl]
    rfl
  · rw [getD_oob (by simp; omega), getD_oob (by omega)]

theorem pushAt_ctx (s : TransState) (i : Nat) (e : TEntry) : (pushAt s i e).ctx = s.ctx := rfl

theorem pushAt_length (s : TransState) (i : Nat) (e : TEntry) :
    (pushAt s i e).arena.length = s.arena.length := by
  simp [pushAt]

theorem pushAt_row_self {s : TransState} {i : Nat} (hi : i < s.arena.length) (e : TEntry) :
    (pushAt s i e).arena.getD i [] = s.arena.getD i [] ++ [e] := by
  simp only [pushAt, List.getD_eq_getElem?_getD]
  rw [List.getElem?_set_eq_of_lt _ hi]
  rfl

theorem pushAt_row_other {s : TransState} {i k : Nat} (hk : k ≠ i) (e : TEntry) :
    (pushAt s i e).arena.getD k [] = s.arena.getD k [] := by
  simp only [pushAt, List.getD_eq_getElem?_getD]
  rw [List.getElem?_set_ne (Ne.symm hk)]

theorem pushAt_props {s : TransState} {i : Nat} (e : TEntry) (hi : i < s.arena.length)
    (hb : ctxBound s) (hr : arenaRefsOk s.arena) (hu : arenaUnwrapped s.arena)
    (hcall : ∀ nm j w, e = .callRef nm j w → i < j ∧ j < s.arena.length)
    (hwrapOk : ∀ nm j, e = .callRef nm j true → i = 0) :
    ctxBound (pushAt s i e) ∧ arenaRefsOk (pushAt s i e).arena ∧
    arenaUnwrapped (pushAt s i e).arena := by
  refine ⟨?_, ?_, ?_⟩
  · intro p k hm
    rw [pushAt_length]
    exact hb p k hm
  · intro i' nm j w hm
    rw [pushAt_length]
    by_cases hik : i' = i
    · subst hik
      rw [pushAt_row_self hi] at hm
      rcases List.mem_append.mp hm with hm | hm
      · exact hr i' nm j w hm
      · simp only [List.mem_singleton] at hm
        exact hcall nm j w hm.symm
    · rw [pushAt_row_other hik] at hm
      exact hr i' nm j w hm
  · intro i' nm j hge hm
    by_cases hik : i' = i
    · subst hik
      rw [pushAt_row_self hi] at hm
      rcases List.mem_append.mp hm with hm | hm
      · exact hu i' nm j hge hm
      · simp only [List.mem_singleton] at hm
        have := hwrapOk nm j hm.symm
        omega
    · rw [pushAt_row_other hik] at hm
      exact hu i' nm j hge hm

theorem arenaRefsOk_append {arena : List (List TEntry)} (hr : arenaRefsOk arena) :
    arenaRefsOk (arena ++ [[]]) := by
  intro i nm j w hm
  rw [getD_append_nil_row] at hm
  have := hr i nm j w hm
  simp only [List.length_append, List.length_cons, List.length_nil]
  omega

theorem arenaUnwrapped_append {arena : List (List TEntry)} (hu : arenaUnwrapped arena) :
    arenaUnwrapped (arena ++ [[]]) := by
  intro i nm j hge hm
  rw [getD_append_nil_row] at hm
  exact hu i nm j hge hm

/-! ## The traversal master lemma

For an expression-shaped node visited with the transformer's visitor, the
traversal succeeds, preserves the state invariants, appends exactly one
matching entry to the parent's collection (one entry per child, in order, for
a list of children), touches no other existing row, and leaves the contexts
of all shorter paths untouched. -/

mutual

theorem traverse_master (node : SrcNode) (path : NodePath) (pnode : SrcNode)
    (ppath : NodePath) (s : TransState) (i : Nat)
    (hshape : exprShaped node = true)
    (hl : lookupCtx s.ctx ppath = some i)
    (hlen : ppath.length < path.length)
    (hwrap : pnode.isCallExpression = false → i = 0)
    (hb : ctxBound s) (hr : arenaRefsOk s.arena) (hu : arenaUnwrapped s.arena) :
    ∃ s' e,
      traverseNode transVisitor node path (some (pnode, ppath)) s = .ok s' ∧
      ctxBound s' ∧ arenaRefsOk s'.arena ∧ arenaUnwrapped s'.arena ∧
      s.arena.length ≤ s'.arena.length ∧
      s'.arena.getD i [] = s.arena.getD i [] ++ [e] ∧
      entryMatches pnode.isCallExpression node e ∧
      (∀ k, k < s.arena.length → k ≠ i → s'.arena.getD k [] = s.arena.getD k []) ∧
      (∀ q : NodePath, q.length < path.length → lookupCtx s'.ctx q = lookupCtx s.ctx q) := by
  have hi : i < s.arena.length := hb ppath i (lookupCtx_mem s.ctx ppath i hl)
  match node with
  | .program _ => simp [exprShaped] at hshape
  | .numberLiteral v =>
    refine ⟨pushAt s i (.numberLiteral v), .numberLiteral v, ?_, ?_, ?_, ?_, ?_, ?_, ?_, ?_, ?_⟩
    · simp only [traverseNode, methodsFor, transVisitor, Option.bind, runHandler,
        numberLiteralEnter, SrcNode.valueOf, hl]
    · exact (pushAt_props (.numberLiteral v) hi hb hr hu
        (by intro nm j w h; cases h) (by intro nm j h; cases h)).1
    · exact (pushAt_props (.numberLiteral v) hi hb hr hu
        (by intro nm j w h; cases h) (by intro nm j h; cases h)).2.1
    · exact (pushAt_props (.numberLiteral v) hi hb hr hu
        (by intro nm j w h; cases h) (by intro nm j h; cases h)).2.2
    · rw [pushAt_length]
    · exact pushAt_row_self hi _
    · exact rfl
    · exact fun k _ hk => pushAt_row_other hk _
    · exact fun q _ => rfl
  | .stringLiteral v =>
    refine ⟨pushAt s i (.stringLiteral v), .stringLiteral v, ?_, ?_, ?_, ?_, ?_, ?_, ?_, ?_, ?_⟩
    · simp only [traverseNode, methodsFor, transVisitor, Option.bind, runHandler,
        stringLiteralEnter, SrcNode.valueOf, hl]
    · exact (pushAt_props (.stringLiteral v) hi hb hr hu
        (by intro nm j w h; cases h) (by intro nm j h; cases h)).1
    · exact (pushAt_props (.stringLiteral v) hi hb hr hu
        (by intro nm j w h; cases h) (by intro nm j h; cases h)).2.1
    · exact (pushAt_props (.stringLiteral v) hi hb hr hu
        (by intro nm j w h; cases h) (by intro nm j h; cases h)).2.2
    · rw [pushAt_length]
    · exact pushAt_row_self hi _
    · exact rfl
    · exact fun k _ hk => pushAt_row_other hk _
    · exact fun q _ => rfl
  | .callExpression nm params =>
    have hshape' : exprShapedList params = true := by
      simpa [exprShaped] using hshape
    have hpath_ne : ∀ q : NodePath, q.length < path.length → ¬ path = q := by
      intro q hq hcontra
      rw [hcontra] at hq
      omega
    have henter : callExpressionEnter (.callExpression nm params) path (some (pnode, ppath)) s
        = .ok (pushAt ⟨s.arena ++ [[]], (path, s.arena.length) :: s.ctx⟩ i
            (.callRef nm s.arena.length (!pnode.isCallExpression))) := by
      simp only [callExpressionEnter, SrcNode.nameOf, lookupCtx_cons,
        if_neg (hpath_ne ppath hlen), hl]
    -- the intermediate states
    have hb1 : ctxBound ⟨s.arena ++ [[]], (path, s.arena.length) :: s.ctx⟩ := by
      intro p k hm
      simp only [List.length_append, List.length_cons, List.length_nil]
      rcases List.mem_cons.mp hm with hm | hm
      · simp only [Prod.mk.injEq] at hm
        omega
      · have := hb p k hm
        omega
    have hr1 : arenaRefsOk (s.arena ++ [[]]) := arenaRefsOk_append hr
    have hu1 : arenaUnwrapped (s.arena ++ [[]]) := arenaUnwrapped_append hu
    have hi1 : i < (s.arena ++ [[]]).length := by
      simp only [List.length_append, List.length_cons, List.length_nil]
      omega
    have hpush := pushAt_props (s := ⟨s.arena ++ [[]], (path, s.arena.length) :: s.ctx⟩)
      (.callRef nm s.arena.length (!pnode.isCallExpression)) hi1 hb1 hr1 hu1
      (by
        intro nm' j w h
        simp only [TEntry.callRef.injEq] at h
        simp only [List.length_append, List.length_cons, List.length_nil]
        omega)
      (by
        intro nm' j h
        simp only [TEntry.callRef.injEq] at h
        exact hwrap (by
          rcases h with ⟨_, _, hwv⟩
          cases hpn : pnode.isCallExpression
          · rfl
          · rw [hpn] at hwv; simp at hwv))
    have hlookup2 : lookupCtx (pushAt ⟨s.arena ++ [[]], (path, s.arena.length) :: s.ctx⟩ i
        (.callRef nm s.arena.length (!pnode.isCallExpression))).ctx path
        = some s.arena.length := by
      rw [pushAt_ctx, lookupCtx_cons, if_pos rfl]
    obtain ⟨s3, es, heval3, hb3, hr3, hu3, hmono3, hrowL, hforall, hoth3, hctx3⟩ :=
      traverseArr_master params (.callExpression nm params) path 0
        (pushAt ⟨s.arena ++ [[]], (path, s.arena.length) :: s.ctx⟩ i
          (.callRef nm s.arena.length (!pnode.isCallExpression)))
        s.arena.length hshape' hlookup2
        (by intro hfalse; simp [SrcNode.isCallExpression] at hfalse)
        hpush.1 hpush.2.1 hpush.2.2
    have hlen2 : (pushAt ⟨s.arena ++ [[]], (path, s.arena.length) :: s.ctx⟩ i
        (.callRef nm s.arena.length (!pnode.isCallExpression))).arena.length
        = s.arena.length + 1 := by
      rw [pushAt_length]
      simp
    refine ⟨s3, .callRef nm s.arena.length (!pnode.isCallExpression),
      ?_, hb3, hr3, hu3, ?_, ?_, ?_, ?_, ?_⟩
    · have hmeth : methodsFor transVisitor (.callExpression nm params)
          = some ⟨some callExpressionEnter, none⟩ := rfl
      simp only [traverseNode, hmeth, Option.bind, runHandler, henter, heval3]
    · rw [hlen2] at hmono3
      omega
    · have h1 := hoth3 i (by omega) (by omega)
      rw [h1, pushAt_row_self hi1, getD_append_nil_row]
    · exact ⟨rfl, rfl⟩
    · intro k hk hki
      have h1 := hoth3 k (by omega) (by omega)
      rw [h1, pushAt_row_other hki, getD_append_nil_row]
    · intro q hq
      rw [hctx3 q (le_of_lt hq), pushAt_ctx, lookupCtx_cons, if_neg (hpath_ne q hq)]
termination_by sizeOf node

theorem traverseArr_master (children : List SrcNode) (pnode : SrcNode) (ppath : NodePath)
    (idx : Nat) (s : TransState) (i : Nat)
    (hshape : exprShapedList children = true)
    (hl : lookupCtx s.ctx ppath = some i)
    (hwrap : pnode.isCallExpression = false → i = 0)
    (hb : ctxBound s) (hr : arenaRefsOk s.arena) (hu : arenaUnwrapped s.arena) :
    ∃ s' es,
      traverseArray transVisitor children pnode ppath idx s = .ok s' ∧
      ctxBound s' ∧ arenaRefsOk s'.arena ∧ arenaUnwrapped s'.arena ∧
      s.arena.length ≤ s'.arena.length ∧
      s'.arena.getD i [] = s.arena.getD i [] ++ es ∧
      List.Forall₂ (entryMatches pnode.isCallExpression) children es ∧
      (∀ k, k < s.arena.length → k ≠ i → s'.arena.getD k [] = s.arena.getD k []) ∧
      (∀ q : NodePath, q.length ≤ ppath.length → lookupCtx s'.ctx q = lookupCtx s.ctx q) := by
  match children with
  | [] =>
    exact ⟨s, [], rfl, hb, hr, hu, le_rfl, by simp, List.Forall₂.nil, fun k _ _ => rfl,
      fun q _ => rfl⟩
  | child :: rest =>
    simp only [exprShapedList, Bool.and_eq_true] at hshape
    obtain ⟨s1, e, heval1, hb1, hr1, hu1, hmono1, hrow1, hm1, hoth1, hctx1⟩ :=
      traverse_master child (ppath ++ [idx]) pnode ppath s i hshape.1 hl (by simp) hwrap hb hr hu
    have hl1 : lookupCtx s1.ctx ppath = some i := by
      rw [hctx1 ppath (by simp), hl]
    obtain ⟨s2, es, heval2, hb2, hr2, hu2, hmono2, hrow2, hm2, hoth2, hctx2⟩ :=
      traverseArr_master rest pnode ppath (idx + 1) s1 i hshape.2 hl1 hwrap hb1 hr1 hu1
    refine ⟨s2, e :: es, ?_, hb2, hr2, hu2, le_trans hmono1 hmono2, ?_, ?_, ?_, ?_⟩
    · simp only [traverseArray, heval1, heval2]
    · rw [hrow2, hrow1, List.append_assoc]
      rfl
    · exact List.Forall₂.cons hm1 hm2
    · intro k hk hki
      rw [hoth2 k (lt_of_lt_of_le hk hmono1) hki, hoth1 k hk hki]
    · intro q hq
      rw [hctx2 q hq, hctx1 q (by simp; omega)]
termination_by sizeOf children

end

/-! ## Readback: materializing the arena always succeeds -/

theorem row_length_le_sum (arena : List (List TEntry)) (i : Nat) :
    (arena.getD i []).length ≤ (arena.map List.length).sum := by
  by_cases hi : i < arena.length
  · rw [List.getD_eq_getElem?_getD, List.getElem?_eq_getElem hi]
    have hmem : arena[i].length ∈ arena.map List.length :=
      List.mem_map_of_mem _ (arena.getElem_mem hi)
    exact List.single_le_sum (fun x _ => Nat.zero_le x) _ hmem
  · rw [getD_oob (by omega)]
    simp

theorem readEntry_total (arena : List (List TEntry))
    (hr : arenaRefsOk arena) (hu : arenaUnwrapped arena) : ∀ fuel,
    (∀ i e, e ∈ arena.getD i [] →
      (arena.length - i) * ((arena.map List.length).sum + 2) ≤ fuel →
      ∃ t, readEntry arena fuel e = some t ∧ argsStmtFree t = true ∧ entryReads e t) ∧
    (∀ i l, (∀ e ∈ l, e ∈ arena.getD i []) →
      l.length + (arena.length - i) * ((arena.map List.length).sum + 2) ≤ fuel →
      ∃ ts, readEntryList arena fuel l = some ts ∧ argsStmtFreeList ts = true ∧
        (1 ≤ i → noStmtList ts = true) ∧ List.Forall₂ entryReads l ts) := by
  intro fuel
  induction fuel with
  | zero =>
    constructor
    · intro i e hmem hfuel
      match e with
      | .numberLiteral v => exact ⟨.numberLiteral v, rfl, rfl, rfl⟩
      | .stringLiteral v => exact ⟨.stringLiteral v, rfl, rfl, rfl⟩
      | .callRef nm j w =>
        exfalso
        obtain ⟨hij, hjlen⟩ := hr i nm j w hmem
        have h2 : (arena.map List.length).sum + 2
            ≤ (arena.length - i) * ((arena.map List.length).sum + 2) :=
          Nat.le_mul_of_pos_left _ (by omega)
        omega
    · intro i l hmem hfuel
      match l with
      | [] => exact ⟨[], rfl, rfl, fun _ => rfl, List.Forall₂.nil⟩
      | e :: es => simp only [List.length_cons] at hfuel; omega
  | succ fuel ih =>
    constructor
    · intro i e hmem hfuel
      match e with
      | .numberLiteral v => exact ⟨.numberLiteral v, rfl, rfl, rfl⟩
      | .stringLiteral v => exact ⟨.stringLiteral v, rfl, rfl, rfl⟩
      | .callRef nm j w =>
        obtain ⟨hij, hjlen⟩ := hr i nm j w hmem
        have hrow := row_length_le_sum arena j
        have hstep : ((arena.length - j) + 1) * ((arena.map List.length).sum + 2)
            ≤ (arena.length - i) * ((arena.map List.length).sum + 2) :=
          Nat.mul_le_mul_right _ (by omega)
        have hsplit : ((arena.length - j) + 1) * ((arena.map List.length).sum + 2)
            = (arena.length - j) * ((arena.map List.length).sum + 2)
              + ((arena.map List.length).sum + 2) := by ring
        obtain ⟨ts, hts, hfree, hnostmt, _⟩ := ih.2 j (arena.getD j []) (fun e he => he)
          (by omega)
        refine ⟨if w then .expressionStatement (.callExpression (.identifier nm) ts)
          else .callExpression (.identifier nm) ts, ?_, ?_, ?_⟩
        · simp only [readEntry, hts]
        · have hno : noStmtList ts = true := hnostmt (by omega)
          cases w <;> simp [argsStmtFree, hno]
        · exact ⟨ts, rfl⟩
    · intro i l hmem hfuel
      match l with
      | [] => exact ⟨[], rfl, rfl, fun _ => rfl, List.Forall₂.nil⟩
      | e :: es =>
        simp only [List.length_cons] at hfuel
        obtain ⟨t, ht, htfree, htreads⟩ := ih.1 i e (hmem e (by simp)) (by omega)
        obtain ⟨ts, hts, hfree, hnostmt, hforall⟩ := ih.2 i es
          (fun e' he' => hmem e' (by simp [he'])) (by omega)
        refine ⟨t :: ts, ?_, ?_, ?_, List.Forall₂.cons htreads hforall⟩
        · simp only [readEntryList, ht, hts]
        · simp [argsStmtFreeList, htfree, hfree]
        · intro hi1
          have hstmt : t.isExpressionStatement = false := by
            match e, htreads with
            | .numberLiteral v, h => rw [h]; rfl
            | .stringLiteral v, h => rw [h]; rfl
            | .callRef nm j w, ⟨args, h⟩ =>
              match w, h with
              | false, h => rw [h]; rfl
              | true, h => exact absurd (hmem _ (by simp)) (fun hm => hu i nm j hi1 hm)
          simp [noStmtList, hstmt, htfree, hnostmt hi1]

/-! ## The transformer on parser-produced trees -/

theorem forall2_exists_mid {α β γ : Type} {r : α → β → Prop} {q : β → γ → Prop} :
    ∀ {l1 : List α} {l2 : List β} {l3 : List γ}, List.Forall₂ r l1 l2 → List.Forall₂ q l2 l3 →
    List.Forall₂ (fun a c => ∃ b, r a b ∧ q b c) l1 l3 := by
  intro l1 l2 l3 h1 h2
  induction h1 generalizing l3 with
  | nil => cases h2; exact List.Forall₂.nil
  | cons ha hrest ih =>
    cases h2 with
    | cons hb hrest2 => exact List.Forall₂.cons ⟨_, ha, hb⟩ (ih hrest2)

theorem transformer_ok (body : List SrcNode) (hsh : exprShapedList body = true) :
    ∃ tbody, transformer (.program body) = .ok (.program tbody) ∧
      List.Forall₂ (fun src tgt => ∃ e, entryMatches false src e ∧ entryReads e tgt)
        body tbody ∧
      argsStmtFreeList tbody = true := by
  have hb0 : ctxBound ⟨[[]], [([], 0)]⟩ := by
    intro p k hm
    simp only [List.mem_singleton, Prod.mk.injEq] at hm
    simp [hm.2]
  have hr0 : arenaRefsOk ([[]] : List (List TEntry)) := by
    intro i nm j w hm
    match i with
    | 0 => simp at hm
    | i + 1 =>
      rw [getD_oob (by simp)] at hm
      simp at hm
  have hu0 : arenaUnwrapped ([[]] : List (List TEntry)) := by
    intro i nm j hge hm
    match i, hge with
    | i + 1, _ =>
      rw [getD_oob (by simp)] at hm
      simp at hm
  obtain ⟨s', es, heval, hb', hr', hu', hmono, hrow0, hforall, _, _⟩ :=
    traverseArr_master body (.program body) [] 0 ⟨[[]], [([], 0)]⟩ 0 hsh rfl
      (fun _ => rfl) hb0 hr0 hu0
  have hrow0' : s'.arena.getD 0 [] = es := by
    rw [hrow0]
    rfl
  have hbound : (s'.arena.getD 0 []).length
      + (s'.arena.length - 0) * ((s'.arena.map List.length).sum + 2)
      ≤ readFuel s'.arena := by
    have h1 := row_length_le_sum s'.arena 0
    have h2 : (s'.arena.length + 1) * ((s'.arena.map List.length).sum + 2)
        = s'.arena.length * ((s'.arena.map List.length).sum + 2)
          + ((s'.arena.map List.length).sum + 2) := by ring
    simp only [readFuel, Nat.sub_zero]
    omega
  obtain ⟨tbody, hread, hfree, _, hreads⟩ := (readEntry_total s'.arena hr' hu'
    (readFuel s'.arena)).2 0 (s'.arena.getD 0 []) (fun e he => he) hbound
  have htrav : traverser transVisitor (.program body) ⟨[[]], [([], 0)]⟩ = .ok s' := by
    have hmeth : methodsFor transVisitor (.program body) = none := rfl
    simp only [traverser, traverseNode, hmeth, Option.bind, runHandler, heval]
  refine ⟨tbody, ?_, ?_, hfree⟩
  · simp only [transformer, htrav, hread]
  · rw [hrow0'] at hreads
    exact forall2_exists_mid hforall hreads

/-! ## C2: the pipeline never fails on accepted inputs -/

/-- C2: for every input the scanner and parser accept, the transformer and
code generator always produce a string — the pipeline's later stages cannot
fail on parser-produced trees (the null-parent and missing-context error
branches of the transformer's callbacks, and the readback fallback, are
unreachable). -/
theorem c2_pipeline_total (input : String) (tokens : List Token) (ast : SrcNode)
    (hlex : tokenizer input = .ok tokens) (hparse : parser tokens = .ok ast) :
    ∃ output, compiler input = .ok output := by
  obtain ⟨body, rfl, hsh⟩ := parser_shape hparse
  obtain ⟨tbody, htrans, _, _⟩ := transformer_ok body hsh
  exact ⟨codeGenerator (.program tbody), by simp only [compiler, hlex, hparse, htrans]⟩

theorem c2_pipeline_total_witness :
    ∃ output, compiler "(add 2 2)" = .ok output :=
  c2_pipeline_total "(add 2 2)"
    [⟨.paren, "("⟩, ⟨.name, "add"⟩, ⟨.number, "2"⟩, ⟨.number, "2"⟩, ⟨.paren, ")"⟩]
    (.program [.callExpression "add" [.numberLiteral "2", .numberLiteral "2"]])
    rfl rfl

/-! ## C3: statement wrapping -/

theorem entry_comp_to_c3 {src : SrcNode} {tgt : TgtNode}
    (h : ∃ e, entryMatches false src e ∧ entryReads e tgt) :
    (∀ nm ps, src = SrcNode.callExpression nm ps →
      ∃ args, tgt = TgtNode.expressionStatement (.callExpression (.identifier nm) args)) ∧
    (src.isCallExpression = false → tgt.isExpressionStatement = false) := by
  obtain ⟨e, hm, hrd⟩ := h
  cases src with
  | program b => cases e <;> exact hm.elim
  | numberLiteral v =>
    cases e with
    | numberLiteral w =>
      have htgt : tgt = .numberLiteral w := hrd
      constructor
      · intro nm ps hcontra; cases hcontra
      · intro _; rw [htgt]; rfl
    | stringLiteral w => exact hm.elim
    | callRef a b c => exact hm.elim
  | stringLiteral v =>
    cases e with
    | numberLiteral w => exact hm.elim
    | stringLiteral w =>
      have htgt : tgt = .stringLiteral w := hrd
      constructor
      · intro nm ps hcontra; cases hcontra
      · intro _; rw [htgt]; rfl
    | callRef a b c => exact hm.elim
  | callExpression nm ps =>
    cases e with
    | numberLiteral w => exact hm.elim
    | stringLiteral w => exact hm.elim
    | callRef nm' j w =>
      obtain ⟨hnm, hw⟩ := hm
      subst hnm
      obtain ⟨args, hargs⟩ := hrd
      constructor
      · intro nm2 ps2 heq
        injection heq with h1 h2
        subst h1
        refine ⟨args, ?_⟩
        rw [hargs, hw]
        simp
      · intro hfalse
        simp [SrcNode.isCallExpression] at hfalse

/-- C3: in the target tree the transformer produces from a parser-produced
source tree, the elements of `Program.body` correspond 1:1 in order to the
source top-level nodes; every element originating from a top-level
`CallExpression` is wrapped in exactly one `ExpressionStatement` (the wrapped
node is the `CallExpression` itself, not another statement), elements from
literals are not wrapped, and no `ExpressionStatement` ever occurs in
argument position anywhere in the target tree. -/
theorem c3_statement_wrapping (tokens : List Token) (body : List SrcNode)
    (tbody : List TgtNode)
    (hp : parser tokens = .ok (.program body))
    (ht : transformer (.program body) = .ok (.program tbody)) :
    List.Forall₂ (fun src tgt =>
      (∀ nm ps, src = SrcNode.callExpression nm ps →
        ∃ args, tgt = TgtNode.expressionStatement (.callExpression (.identifier nm) args)) ∧
      (src.isCallExpression = false → tgt.isExpressionStatement = false)) body tbody ∧
    argsStmtFreeList tbody = true := by
  obtain ⟨b, heq, hsh⟩ := parser_shape hp
  injection heq with hbb
  subst hbb
  obtain ⟨tbody', htrans', hforall, hfree⟩ := transformer_ok body hsh
  rw [ht] at htrans'
  injection htrans' with h1
  injection h1 with h2
  subst h2
  exact ⟨List.Forall₂.imp (fun src tgt h => entry_comp_to_c3 h) hforall, hfree⟩

theorem c3_statement_wrapping_witness :
    List.Forall₂ (fun src tgt =>
      (∀ nm ps, src = SrcNode.callExpression nm ps →
        ∃ args, tgt = TgtNode.expressionStatement (.callExpression (.identifier nm) args)) ∧
      (src.isCallExpression = false → tgt.isExpressionStatement = false))
      [SrcNode.callExpression "add"
        [.numberLiteral "2", .callExpression "subtract" [.numberLiteral "4", .numberLiteral "2"]],
       SrcNode.numberLiteral "7"]
      [TgtNode.expressionStatement (.callExpression (.identifier "add")
        [.numberLiteral "2", .callExpression (.identifier "subtract")
          [.numberLiteral "4", .numberLiteral "2"]]),
       TgtNode.numberLiteral "7"] ∧
    argsStmtFreeList
      [TgtNode.expressionStatement (.callExpression (.identifier "add")
        [.numberLiteral "2", .callExpression (.identifier "subtract")
          [.numberLiteral "4", .numberLiteral "2"]]),
       TgtNode.numberLiteral "7"] = true :=
  c3_statement_wrapping
    [⟨.paren, "("⟩, ⟨.name, "add"⟩, ⟨.number, "2"⟩, ⟨.paren, "("⟩, ⟨.name, "subtract"⟩,
     ⟨.number, "4"⟩, ⟨.number, "2"⟩, ⟨.paren, ")"⟩, ⟨.paren, ")"⟩, ⟨.number, "7"⟩]
    [SrcNode.callExpression "add"
      [.numberLiteral "2", .callExpression "subtract" [.numberLiteral "4", .numberLiteral "2"]],
     SrcNode.numberLiteral "7"]
    [TgtNode.expressionStatement (.callExpression (.identifier "add")
      [.numberLiteral "2", .callExpression (.identifier "subtract")
        [.numberLiteral "4", .numberLiteral "2"]]),
     TgtNode.numberLiteral "7"]
    rfl rfl

/-! ## C1: the nested-call example -/

/-- C1: compiling `(add 2 (subtract 4 2))` yields exactly
`add(2, subtract(4, 2));` — callee rendered, arguments joined with `", "`,
the nested call rendered in argument position, and the top-level call
terminated with `;`. -/
theorem c1_nested_call_example :
    compiler "(add 2 (subtract 4 2))" = .ok "add(2, subtract(4, 2));" := rfl

/-! ## C10: bare literals at top level -/

theorem intercalate_single (s x : String) : String.intercalate s [x] = x := rfl

theorem lexLoop_nil (fuel : Nat) (tokens : List Token) : lexLoop fuel [] tokens = .ok tokens := by
  cases fuel <;> rfl

/-- C10: a bare literal at top level passes through the whole pipeline: a
single number (maximal digit run) or a single double-quoted string compiles;
the target `Program.body` holds the literal node directly — not wrapped in an
`ExpressionStatement` — and the output is the literal's rendering with no
trailing semicolon. -/
theorem c10_top_level_literals :
    (∀ ds : List Char, ds ≠ [] → ds.all isDigitChar = true →
      tokenizer (String.mk ds) = .ok [⟨.number, String.mk ds⟩] ∧
      parser [⟨.number, String.mk ds⟩] = .ok (.program [.numberLiteral (String.mk ds)]) ∧
      transformer (.program [.numberLiteral (String.mk ds)])
        = .ok (.program [.numberLiteral (String.mk ds)]) ∧
      compiler (String.mk ds) = .ok (String.mk ds)) ∧
    (∀ cs : List Char, cs.all (fun c => c ≠ '"') = true →
      tokenizer (String.mk ('"' :: cs ++ ['"'])) = .ok [⟨.string, String.mk cs⟩] ∧
      parser [⟨.string, String.mk cs⟩] = .ok (.program [.stringLiteral (String.mk cs)]) ∧
      transformer (.program [.stringLiteral (String.mk cs)])
        = .ok (.program [.stringLiteral (String.mk cs)]) ∧
      compiler (String.mk ('"' :: cs ++ ['"'])) = .ok ("\"" ++ String.mk cs ++ "\"")) := by
  constructor
  · intro ds hne hdig
    match ds, hne with
    | d :: ds', _ =>
      simp only [List.all_eq_true] at hdig
      have hd : isDigitChar d = true := hdig d (by simp)
      obtain ⟨hne1, hne2, hnw, _⟩ := isDigitChar_props hd
      have hrw : runWhile isDigitChar (d :: ds') = (d :: ds', []) := by
        have h := runWhile_append (p := isDigitChar) (d :: ds') [] hdig
          (by intro c hc; cases hc)
        simpa using h
      have hlex : tokenizer (String.mk (d :: ds')) = .ok [⟨.number, String.mk (d :: ds')⟩] := by
        show lexLoop (ds'.length + 1) (d :: ds') [] = _
        simp only [lexLoop]
        rw [if_neg hne1, if_neg hne2, if_neg (by simp [hnw]), if_pos hd, hrw]
        show lexLoop ds'.length [] ([] ++ [⟨.number, String.mk (d :: ds')⟩]) = _
        rw [lexLoop_nil]
        rfl
      have hparse : parser [⟨.number, String.mk (d :: ds')⟩]
          = .ok (.program [.numberLiteral (String.mk (d :: ds'))]) := by
        simp [parser, parseLoop, walk]
      have htrans : transformer (.program [.numberLiteral (String.mk (d :: ds'))])
          = .ok (.program [.numberLiteral (String.mk (d :: ds'))]) := by
        simp [transformer, traverser, traverseNode, traverseArray, methodsFor, transVisitor,
          runHandler, Option.bind, numberLiteralEnter, SrcNode.valueOf, lookupCtx, pushAt,
          readFuel, readEntryList, readEntry]
      refine ⟨hlex, hparse, htrans, ?_⟩
      simp only [compiler, hlex, hparse, htrans, codeGenerator, codeGeneratorList,
        intercalate_single]
  · intro cs hq
    simp only [List.all_eq_true, decide_eq_true_eq] at hq
    have hsp : splitAtQuote (cs ++ ['"']) = some (cs, []) := splitAtQuote_append cs [] hq
    have hlex : tokenizer (String.mk ('"' :: cs ++ ['"'])) = .ok [⟨.string, String.mk cs⟩] := by
      show (match splitAtQuote (cs ++ ['"']) with
        | none => LexResult.diverge
        | some r =>
          lexLoop (cs ++ ['"']).length r.2 ([] ++ [Token.mk TokenType.string (String.mk r.1)]))
        = .ok [Token.mk TokenType.string (String.mk cs)]
      rw [hsp]
      show lexLoop (cs ++ ['"']).length [] ([] ++ [Token.mk TokenType.string (String.mk cs)]) = _
      rw [lexLoop_nil]
      rfl
    have hparse : parser [⟨.string, String.mk cs⟩]
        = .ok (.program [.stringLiteral (String.mk cs)]) := by
      simp [parser, parseLoop, walk]
    have htrans : transformer (.program [.stringLiteral (String.mk cs)])
        = .ok (.program [.stringLiteral (String.mk cs)]) := by
      simp [transformer, traverser, traverseNode, traverseArray, methodsFor, transVisitor,
        runHandler, Option.bind, stringLiteralEnter, SrcNode.valueOf, lookupCtx, pushAt,
        readFuel, readEntryList, readEntry]
    refine ⟨hlex, hparse, htrans, ?_⟩
    simp only [compiler, hlex, hparse, htrans, codeGenerator, codeGeneratorList,
      intercalate_single]

theorem c10_top_level_literals_witness :
    compiler (String.mk ['5']) = .ok (String.mk ['5']) ∧
    compiler (String.mk ('"' :: ['h', 'i'] ++ ['"'])) = .ok ("\"" ++ String.mk ['h', 'i'] ++ "\"") :=
  ⟨(c10_top_level_literals.1 ['5'] (by decide) (by decide)).2.2.2,
   (c10_top_level_literals.2 ['h', 'i'] (by decide)).2.2.2⟩

/-! ## C8: whitespace between tokens -/

theorem lexLoop_ws_prefix : ∀ (ws l : List Char) (acc : List Token) (fuel : Nat),
    ws.all isWhitespaceChar = true → ws.length ≤ fuel →
    lexLoop fuel (ws ++ l) acc = lexLoop (fuel - ws.length) l acc := by
  intro ws
  induction ws with
  | nil => intro l acc fuel _ _; simp
  | cons c ws' ih =>
    intro l acc fuel hall hlen
    simp only [List.all_cons, Bool.and_eq_true] at hall
    obtain ⟨hne1, hne2, _, _, _⟩ := isWhitespaceChar_props hall.1
    cases fuel with
    | zero => simp at hlen
    | succ f =>
      show lexLoop (f + 1) (c :: (ws' ++ l)) acc = _
      simp only [lexLoop]
      rw [if_neg hne1, if_neg hne2, if_pos hall.1]
      have harith : (f + 1) - (c :: ws').length = f - ws'.length := by
        simp only [List.length_cons]
        omega
      rw [harith]
      exact ih l acc f hall.2 (by simp only [List.length_cons] at hlen; omega)

theorem lexLoop_ws (ws : List Char) (acc : List Token) (fuel : Nat)
    (hall : ws.all isWhitespaceChar = true) (hlen : ws.length ≤ fuel) :
    lexLoop fuel ws acc = .ok acc := by
  have h := lexLoop_ws_prefix ws [] acc fuel hall hlen
  rw [List.append_nil] at h
  rw [h, lexLoop_nil]

theorem okPairs_cons {ws : List Char} {t : Token} {rest : List (List Char × Token)}
    (h : okPairs ((ws, t) :: rest) = true) :
    ws.all isWhitespaceChar = true ∧ wfToken t = true ∧ okPairs rest = true ∧
    (∀ ws2 t2 rest2, rest = (ws2, t2) :: rest2 →
      (ws2.isEmpty = false ∨ mergeSafe t t2 = true)) := by
  match rest with
  | [] =>
    simp only [okPairs, Bool.and_eq_true] at h
    exact ⟨h.1, h.2, rfl, fun _ _ _ h' => by cases h'⟩
  | (ws2, t2) :: rest2 =>
    simp only [okPairs, Bool.and_eq_true, Bool.or_eq_true, Bool.not_eq_true'] at h
    refine ⟨h.1.1.1, h.1.1.2, ?_, ?_⟩
    · exact h.2
    · intro ws3 t3 rest3 heq
      injection heq with h1 _
      injection h1 with ha hb
      subst ha
      subst hb
      exact h.1.2

theorem tokenChars_ne_nil {t : Token} (hwf : wfToken t = true) : tokenChars t ≠ [] := by
  match htt : t.type with
  | .paren =>
    rw [wfToken, htt] at hwf
    simp only [Bool.or_eq_true, decide_eq_true_eq] at hwf
    rcases hwf with h | h
    · rw [tokenChars, htt, h]
      show ("(" : String).data ≠ []
      decide
    · rw [tokenChars, htt, h]
      show (")" : String).data ≠ []
      decide
  | .number =>
    rw [wfToken, htt] at hwf
    simp only [Bool.and_eq_true, Bool.not_eq_true'] at hwf
    rw [tokenChars, htt]
    show t.value.data ≠ []
    intro hcontra
    rw [hcontra] at hwf
    simp at hwf
  | .string =>
    rw [tokenChars, htt]
    show '"' :: t.value.data ++ ['"'] ≠ []
    simp
  | .name =>
    rw [wfToken, htt] at hwf
    simp only [Bool.and_eq_true, Bool.not_eq_true'] at hwf
    rw [tokenChars, htt]
    show t.value.data ≠ []
    intro hcontra
    rw [hcontra] at hwf
    simp at hwf

theorem renderSep_eq_nil {pairs : List (List Char × Token)} {trail : List Char}
    (hok : okPairs pairs = true) (hnil : renderSep pairs trail = []) :
    pairs = [] ∧ trail = [] := by
  match pairs with
  | [] => exact ⟨rfl, hnil⟩
  | (ws, t) :: rest =>
    exfalso
    rw [renderSep] at hnil
    have h1 := List.append_eq_nil.mp hnil
    have h2 := List.append_eq_nil.mp h1.1
    exact tokenChars_ne_nil (okPairs_cons hok).2.1 h2.2

theorem renderSep_first_char (pairs : List (List Char × Token)) (trail : List Char)
    (hok : okPairs pairs = true) (htrail : trail.all isWhitespaceChar = true) :
    ∀ c, (renderSep pairs trail).head? = some c →
      isWhitespaceChar c = true ∨ c = '(' ∨ c = ')' ∨ c = '"' ∨
      (isDigitChar c = true ∧ ∃ ws t rest, pairs = (ws, t) :: rest ∧ ws = [] ∧
        t.type = TokenType.number) ∨
      (isLetterChar c = true ∧ ∃ ws t rest, pairs = (ws, t) :: rest ∧ ws = [] ∧
        t.type = TokenType.name) := by
  intro c hc
  match pairs with
  | [] =>
    left
    rw [renderSep] at hc
    match trail, hc with
    | c' :: trail', hc =>
      simp only [List.head?_cons, Option.some.injEq] at hc
      subst hc
      simp only [List.all_cons, Bool.and_eq_true] at htrail
      exact htrail.1
  | (ws, t) :: rest =>
    obtain ⟨hws, hwf, _, _⟩ := okPairs_cons hok
    rw [renderSep] at hc
    match ws, hc with
    | c' :: ws', hc =>
      left
      simp only [List.cons_append, List.head?_cons, Option.some.injEq] at hc
      subst hc
      simp only [List.all_cons, Bool.and_eq_true] at hws
      exact hws.1
    | [], hc =>
      simp only [List.nil_append] at hc
      obtain ⟨ty, v⟩ := t
      cases ty with
      | paren =>
        simp only [wfToken, Bool.or_eq_true, decide_eq_true_eq] at hwf
        rcases hwf with h | h
        · subst h
          have hc' : ('(' :: renderSep rest trail).head? = some c := hc
          simp only [List.head?_cons, Option.some.injEq] at hc'
          subst hc'
          right; left; rfl
        · subst h
          have hc' : (')' :: renderSep rest trail).head? = some c := hc
          simp only [List.head?_cons, Option.some.injEq] at hc'
          subst hc'
          right; right; left; rfl
      | number =>
        simp only [wfToken, Bool.and_eq_true, Bool.not_eq_true', List.all_eq_true] at hwf
        have hc' : (v.data ++ renderSep rest trail).head? = some c := hc
        match hvd : v.data, hwf with
        | d :: ds, hwf =>
          rw [hvd] at hc'
          simp only [List.cons_append, List.head?_cons, Option.some.injEq] at hc'
          subst hc'
          right; right; right; right; left
          refine ⟨hwf.2 d (by simp), [], ⟨TokenType.number, v⟩, rest, rfl, rfl, rfl⟩
      | string =>
        have hc' : ('"' :: (v.data ++ ['"'] ++ renderSep rest trail)).head? = some c := hc
        simp only [List.head?_cons, Option.some.injEq] at hc'
        subst hc'
        right; right; right; left; rfl
      | name =>
        simp only [wfToken, Bool.and_eq_true, Bool.not_eq_true', List.all_eq_true] at hwf
        have hc' : (v.data ++ renderSep rest trail).head? = some c := hc
        match hvd : v.data, hwf with
        | d :: ds, hwf =>
          rw [hvd] at hc'
          simp only [List.cons_append, List.head?_cons, Option.some.injEq] at hc'
          subst hc'
          right; right; right; right; right
          refine ⟨hwf.2 d (by simp), [], ⟨TokenType.name, v⟩, rest, rfl, rfl, rfl⟩

theorem renderSep_head_not_digit (rest : List (List Char × Token)) (trail : List Char)
    (hok : okPairs rest = true) (htrail : trail.all isWhitespaceChar = true)
    (hsafe : ∀ ws2 t2 rest2, rest = (ws2, t2) :: rest2 → ws2 = [] →
      t2.type ≠ TokenType.number) :
    ∀ c, (renderSep rest trail).head? = some c → isDigitChar c = false := by
  intro c hc
  rcases renderSep_first_char rest trail hok htrail c hc with
    h | h | h | h | ⟨hd, ws2, t2, rest2, heq, hwsnil, htt⟩ | ⟨hl, _⟩
  · exact (isWhitespaceChar_props h).2.2.2.1
  · subst h; rfl
  · subst h; rfl
  · subst h; rfl
  · exact absurd htt (hsafe ws2 t2 rest2 heq hwsnil)
  · exact (isLetterChar_props hl).2.2.2.1

theorem renderSep_head_not_letter (rest : List (List Char × Token)) (trail : List Char)
    (hok : okPairs rest = true) (htrail : trail.all isWhitespaceChar = true)
    (hsafe : ∀ ws2 t2 rest2, rest = (ws2, t2) :: rest2 → ws2 = [] →
      t2.type ≠ TokenType.name) :
    ∀ c, (renderSep rest trail).head? = some c → isLetterChar c = false := by
  intro c hc
  rcases renderSep_first_char rest trail hok htrail c hc with
    h | h | h | h | ⟨hd, _⟩ | ⟨hl, ws2, t2, rest2, heq, hwsnil, htt⟩
  · exact (isWhitespaceChar_props h).2.2.2.2
  · subst h; rfl
  · subst h; rfl
  · subst h; rfl
  · rw [Bool.eq_false_iff]
    intro hlet
    rw [(isLetterChar_props hlet).2.2.2.1] at hd
    exact absurd hd (by decide)
  · exact absurd htt (hsafe ws2 t2 rest2 heq hwsnil)

theorem lexLoop_render (trail : List Char) (htrail : trail.all isWhitespaceChar = true) :
    ∀ (pairs : List (List Char × Token)) (acc : List Token) (fuel : Nat),
    okPairs pairs = true →
    (∀ p, pairs.getLast? = some p → p.2.type = TokenType.name → trail ≠ []) →
    (renderSep pairs trail).length ≤ fuel →
    lexLoop fuel (renderSep pairs trail) acc = .ok (acc ++ pairs.map (fun p => p.2)) := by
  intro pairs
  induction pairs with
  | nil =>
    intro acc fuel _ _ hfuel
    rw [renderSep] at hfuel ⊢
    rw [lexLoop_ws trail acc fuel htrail hfuel]
    simp
  | cons p rest ih =>
    intro acc fuel hok hlast hfuel
    obtain ⟨ws, ty, v⟩ := p
    obtain ⟨hws, hwf, hokrest, hadj⟩ := okPairs_cons hok
    have hlast' : ∀ p, rest.getLast? = some p → p.2.type = TokenType.name → trail ≠ [] := by
      intro p hp htp
      match rest, hp with
      | r :: rest2, hp =>
        exact hlast p (by rw [List.getLast?_cons_cons]; exact hp) htp
    have hrlen : (renderSep ((ws, ⟨ty, v⟩) :: rest) trail).length
        = ws.length + (tokenChars ⟨ty, v⟩).length + (renderSep rest trail).length := by
      rw [renderSep]; simp only [List.length_append]
    rw [hrlen] at hfuel
    have hstep1 : lexLoop fuel (renderSep ((ws, ⟨ty, v⟩) :: rest) trail) acc
        = lexLoop (fuel - ws.length) (tokenChars ⟨ty, v⟩ ++ renderSep rest trail) acc := by
      rw [renderSep, List.append_assoc]
      exact lexLoop_ws_prefix ws _ acc fuel hws (by omega)
    rw [hstep1]
    have hfuel2 : (tokenChars (⟨ty, v⟩ : Token)).length + (renderSep rest trail).length
        ≤ fuel - ws.length := by omega
    cases ty with
    | paren =>
      simp only [wfToken, Bool.or_eq_true, decide_eq_true_eq] at hwf
      rcases hwf with h | h
      · subst h
        have htc : tokenChars ⟨TokenType.paren, "("⟩ = ['('] := rfl
        rw [htc] at hfuel2 ⊢
        cases hfm : fuel - ws.length with
        | zero =>
          rw [hfm] at hfuel2
          simp only [List.length_cons, List.length_nil] at hfuel2
          omega
        | succ f =>
          rw [hfm] at hfuel2
          show lexLoop (f + 1) ('(' :: renderSep rest trail) acc = _
          simp only [lexLoop]
          rw [if_pos trivial]
          rw [ih _ f hokrest hlast'
            (by simp only [List.length_cons, List.length_nil] at hfuel2; omega)]
          simp
      · subst h
        have htc : tokenChars ⟨TokenType.paren, ")"⟩ = [')'] := rfl
        rw [htc] at hfuel2 ⊢
        cases hfm : fuel - ws.length with
        | zero =>
          rw [hfm] at hfuel2
          simp only [List.length_cons, List.length_nil] at hfuel2
          omega
        | succ f =>
          rw [hfm] at hfuel2
          show lexLoop (f + 1) (')' :: renderSep rest trail) acc = _
          simp only [lexLoop]
          rw [if_pos trivial, if_neg (by decide)]
          rw [ih _ f hokrest hlast'
            (by simp only [List.length_cons, List.length_nil] at hfuel2; omega)]
          simp
    | number =>
      simp only [wfToken, Bool.and_eq_true, Bool.not_eq_true', List.all_eq_true] at hwf
      obtain ⟨hne, hall⟩ := hwf
      have htc : tokenChars ⟨TokenType.number, v⟩ = v.data := rfl
      rw [htc] at hfuel2 ⊢
      match hvd : v.data, hne with
      | d :: ds, _ =>
        rw [hvd] at hfuel2
        have hd : isDigitChar d = true := hall d (by rw [hvd]; simp)
        obtain ⟨hnp1, hnp2, hnw, _⟩ := isDigitChar_props hd
        have hsafe : ∀ ws2 t2 rest2, rest = (ws2, t2) :: rest2 → ws2 = [] →
            t2.type ≠ TokenType.number := by
          intro ws2 t2 rest2 heq hwsnil htt2
          rcases hadj ws2 t2 rest2 heq with h | h
          · rw [hwsnil] at h; simp at h
          · simp [mergeSafe, htt2] at h
        have hnr := renderSep_head_not_digit rest trail hokrest htrail hsafe
        have hrun : runWhile isDigitChar (d :: (ds ++ renderSep rest trail))
            = (d :: ds, renderSep rest trail) := by
          have h := runWhile_append (d :: ds) (renderSep rest trail)
            (fun c hc => hall c (by rw [hvd]; exact hc)) hnr
          simpa [List.cons_append] using h
        cases hfm : fuel - ws.length with
        | zero =>
          rw [hfm] at hfuel2
          simp only [List.length_cons] at hfuel2
          omega
        | succ f =>
          rw [hfm] at hfuel2
          show lexLoop (f + 1) (d :: (ds ++ renderSep rest trail)) acc = _
          simp only [lexLoop]
          rw [if_neg hnp1, if_neg hnp2, if_neg (by simp [hnw]), if_pos hd, hrun]
          show lexLoop f (renderSep rest trail)
            (acc ++ [Token.mk TokenType.number (String.mk (d :: ds))]) = _
          have hveq : String.mk (d :: ds) = v := by rw [← hvd]
          rw [hveq]
          rw [ih _ f hokrest hlast'
            (by simp only [List.length_cons] at hfuel2; omega)]
          simp
    | string =>
      simp only [wfToken, List.all_eq_true, decide_eq_true_eq] at hwf
      have htc : tokenChars ⟨TokenType.string, v⟩ = ('"' :: v.data) ++ ['"'] := rfl
      rw [htc] at hfuel2 ⊢
      rw [List.append_assoc]
      cases hfm : fuel - ws.length with
      | zero =>
        rw [hfm] at hfuel2
        simp only [List.length_append, List.length_cons, List.length_nil] at hfuel2
        omega
      | succ f =>
        rw [hfm] at hfuel2
        show lexLoop (f + 1) ('"' :: (v.data ++ '"' :: renderSep rest trail)) acc = _
        simp only [lexLoop]
        rw [if_pos trivial]
        have hsp : splitAtQuote (v.data ++ '"' :: renderSep rest trail)
            = some (v.data, renderSep rest trail) := splitAtQuote_append v.data _ hwf
        rw [hsp]
        show lexLoop f (renderSep rest trail)
          (acc ++ [Token.mk TokenType.string (String.mk v.data)]) = _
        have hveq : String.mk v.data = v := rfl
        rw [hveq]
        rw [ih _ f hokrest hlast'
          (by simp only [List.length_append, List.length_cons, List.length_nil] at hfuel2
              omega)]
        simp
    | name =>
      simp only [wfToken, Bool.and_eq_true, Bool.not_eq_true', List.all_eq_true] at hwf
      obtain ⟨hne, hall⟩ := hwf
      have htc : tokenChars ⟨TokenType.name, v⟩ = v.data := rfl
      rw [htc] at hfuel2 ⊢
      match hvd : v.data, hne with
      | d :: ds, _ =>
        rw [hvd] at hfuel2
        have hd : isLetterChar d = true := hall d (by rw [hvd]; simp)
        obtain ⟨hnp1, hnp2, hnw, hnd, hnq⟩ := isLetterChar_props hd
        have hsafe : ∀ ws2 t2 rest2, rest = (ws2, t2) :: rest2 → ws2 = [] →
            t2.type ≠ TokenType.name := by
          intro ws2 t2 rest2 heq hwsnil htt2
          rcases hadj ws2 t2 rest2 heq with h | h
          · rw [hwsnil] at h; simp at h
          · simp [mergeSafe, htt2] at h
        have hnr := renderSep_head_not_letter rest trail hokrest htrail hsafe
        have hrun : runWhile isLetterChar (d :: (ds ++ renderSep rest trail))
            = (d :: ds, renderSep rest trail) := by
          have h := runWhile_append (d :: ds) (renderSep rest trail)
            (fun c hc => hall c (by rw [hvd]; exact hc)) hnr
          simpa [List.cons_append] using h
        have hrne : renderSep rest trail ≠ [] := by
          intro hnil
          obtain ⟨hrest, htrl⟩ := renderSep_eq_nil hokrest hnil
          subst hrest
          exact hlast (ws, ⟨TokenType.name, v⟩) (by simp) rfl htrl
        cases hfm : fuel - ws.length with
        | zero =>
          rw [hfm] at hfuel2
          simp only [List.length_cons] at hfuel2
          omega
        | succ f =>
          rw [hfm] at hfuel2
          show lexLoop (f + 1) (d :: (ds ++ renderSep rest trail)) acc = _
          simp only [lexLoop]
          rw [if_neg hnp1, if_neg hnp2, if_neg (by simp [hnw]), if_neg (by simp [hnd]),
            if_neg hnq, if_pos hd, hrun]
          show (if (renderSep rest trail).isEmpty then LexResult.diverge
            else lexLoop f (renderSep rest trail)
              (acc ++ [Token.mk TokenType.name (String.mk (d :: ds))])) = _
          have hemp : (renderSep rest trail).isEmpty = false := by
            cases hrc : renderSep rest trail with
            | nil => exact absurd hrc hrne
            | cons a l => rfl
          rw [if_neg (by simp [hemp])]
          have hveq : String.mk (d :: ds) = v := by rw [← hvd]
          rw [hveq]
          rw [ih _ f hokrest hlast'
            (by simp only [List.length_cons] at hfuel2; omega)]
          simp

theorem tokenizer_render (pairs : List (List Char × Token)) (trail : List Char)
    (hok : okRender pairs trail = true) :
    tokenizer (String.mk (renderSep pairs trail)) = .ok (pairs.map (fun p => p.2)) := by
  simp only [okRender, Bool.and_eq_true, Bool.or_eq_true, Bool.not_eq_true'] at hok
  obtain ⟨⟨hp, ht⟩, hl⟩ := hok
  have hlast : ∀ p, pairs.getLast? = some p → p.2.type = TokenType.name → trail ≠ [] := by
    intro p hp2 htp hnil
    rcases hl with h | h
    · rw [hnil] at h; simp at h
    · rw [hp2] at h; simp [htp] at h
  have h := lexLoop_render trail ht pairs [] (renderSep pairs trail).length hp hlast le_rfl
  rw [show tokenizer (String.mk (renderSep pairs trail))
    = lexLoop (renderSep pairs trail).length (renderSep pairs trail) [] from rfl, h]
  simp

/-- C8 counterexample: `"(add 2 2)"` is accepted by `compiler`, but removing
the whitespace run between the two number tokens merges them into one number
token, so the output changes from `"add(2, 2);"` to `"add(22);"` — not the
identical output string the claim promises for every whitespace removal. -/
theorem c8_counterexample :
    compiler "(add 2 2)" = .ok "add(2, 2);" ∧
    compiler "(add 22)" = .ok "add(22);" ∧
    ("add(2, 2);" : String) ≠ "add(22);" :=
  ⟨rfl, rfl, by decide⟩

/-- C8 (amended): whitespace between tokens is insignificant as long as every
token separator that is fully removed sits between two tokens that cannot
merge (not number–number and not name–name), and input that ends in a `name`
token keeps at least one trailing whitespace character: any two such
renderings of the same token sequence compile to identical results. -/
theorem c8_whitespace_between_tokens (pairs1 : List (List Char × Token)) (trail1 : List Char)
    (pairs2 : List (List Char × Token)) (trail2 : List Char)
    (h1 : okRender pairs1 trail1 = true) (h2 : okRender pairs2 trail2 = true)
    (heq : pairs1.map (fun p => p.2) = pairs2.map (fun p => p.2)) :
    compiler (String.mk (renderSep pairs1 trail1))
      = compiler (String.mk (renderSep pairs2 trail2)) := by
  have t1 := tokenizer_render pairs1 trail1 h1
  have t2 := tokenizer_render pairs2 trail2 h2
  simp only [compiler]
  rw [t1, t2, heq]

/-- The tokens of `"(add 2 2)"`, each with the separator rendered before it. -/
def c8pairsA : List (List Char × Token) :=
  [([], ⟨.paren, "("⟩), ([], ⟨.name, "add"⟩), ([' '], ⟨.number, "2"⟩),
   ([' '], ⟨.number, "2"⟩), ([], ⟨.paren, ")"⟩)]

/-- The same token sequence rendered with different whitespace runs. -/
def c8pairsB : List (List Char × Token) :=
  [([' '], ⟨.paren, "("⟩), ([], ⟨.name, "add"⟩), ([' ', '\t'], ⟨.number, "2"⟩),
   ([' '], ⟨.number, "2"⟩), ([' ', ' '], ⟨.paren, ")"⟩)]

theorem c8_whitespace_between_tokens_witness :
    okRender c8pairsA [] = true ∧ okRender c8pairsB [' ', '\n'] = true ∧
    c8pairsA.map (fun p => p.2) = c8pairsB.map (fun p => p.2) ∧
    compiler (String.mk (renderSep c8pairsA []))
      = compiler (String.mk (renderSep c8pairsB [' ', '\n'])) :=
  ⟨rfl, rfl, rfl,
    c8_whitespace_between_tokens c8pairsA [] c8pairsB [' ', '\n'] rfl rfl rfl⟩

theorem c6_open_call_out_of_range_witness :
    (∀ t ∈ [(⟨TokenType.number, "1"⟩ : Token)], t.type = TokenType.number) ∧
    parser [⟨.paren, "("⟩, ⟨.number, "1"⟩] = .err .outOfRange :=
  ⟨by decide, c6_open_call_out_of_range [⟨TokenType.number, "1"⟩] (by decide)⟩
